import Mathlib

/-!
# baur: digest parsing and the postgres build store

A shallow embedding of `digest/digest.go` and `storage/postgres/postgres.go`.

Go strings are modelled by Lean `String`s (sequences of Unicode code points,
that is, valid UTF-8 texts); Go's `len` of a string is its UTF-8 byte count.
-/

set_option autoImplicit false

namespace digest

/-- Go's builtin `len` on a string: the number of bytes of its UTF-8 encoding. -/
def len (s : String) : Nat := s.utf8ByteSize

/-- Go's `unicode.IsSpace`: the Latin-1 spaces `\t \n \v \f \r`, space, U+0085, U+00A0,
and above Latin-1 the code points of the `White_Space` table. -/
def IsSpace (r : Char) : Bool :=
  let n := r.toNat
  if n ≤ 0xFF then
    n == 0x09 || n == 0x0A || n == 0x0B || n == 0x0C || n == 0x0D || n == 0x20
      || n == 0x85 || n == 0xA0
  else
    n == 0x1680 || (0x2000 ≤ n && n ≤ 0x200A) || n == 0x2028 || n == 0x2029
      || n == 0x202F || n == 0x205F || n == 0x3000

/-- Go's `strings.TrimSpace`: all leading and trailing white space removed. -/
def TrimSpace (s : String) : String :=
  ⟨((s.data.dropWhile IsSpace).reverse.dropWhile IsSpace).reverse⟩

/-- The pieces of a character sequence between the occurrences of `sep`. -/
def splitChars (sep : Char) : List Char → List (List Char)
  | [] => [[]]
  | c :: cs =>
    if c = sep then [] :: splitChars sep cs
    else
      match splitChars sep cs with
      | [] => [[c]]
      | p :: ps => (c :: p) :: ps

/-- Go's `strings.Split(s, sep)` for a separator of one character (the only
call passes `":"`): the substrings between the separators, `n + 1` of them
for `n` separators. -/
def Split (s : String) (sep : Char) : List String :=
  (splitChars sep s.data).map String.mk

/-- The checksum type, `type Type int`. -/
abbrev Type_ := Int

/-- The constant `SHA256` (`iota` value 1; value 0 is the blank identifier). -/
def SHA256 : Type_ := 1

/-- The method `Type.String`: the textual representation. -/
def Type_.String (t : Type_) : String :=
  if t = SHA256 then "sha256" else "undefined"

/-- The struct `Digest`: a checksum and its type. -/
structure Digest where
  Sum : String
  Type_ : digest.Type_
deriving DecidableEq, Repr

/-- The method `Digest.String`: `fmt.Sprintf("%s:%s", d.Type, d.Sum)`. -/
def Digest.String (d : Digest) : String :=
  Type_.String d.Type_ ++ ":" ++ d.Sum

/-- The function `FromString`: converts a `sha256:<hash>` string to a `Digest`. -/
def FromString (in_ : String) : Except String Digest :=
  match Split (TrimSpace in_) ':' with
  | [spl0, spl1] =>
    if spl0 ≠ "sha256" then
      .error "unsupported format %q"
    else if len spl1 ≠ 64 then
      .error ("hash length is " ++ toString (len spl1) ++ ", expected length 64")
    else
      .ok { Sum := spl1, Type_ := SHA256 }
  | _ => .error "invalid format, must contain exactly 1 ':'"

/-- The number of `:` separators of a text. -/
def sepCount (s : String) : Nat := s.data.count ':'

/-- The part of a text before its first `:` separator. -/
def partBefore (s : String) : String := ⟨s.data.takeWhile (· ≠ ':')⟩

/-- The part of a text after its first `:` separator. -/
def partAfter (s : String) : String := ⟨(s.data.dropWhile (· ≠ ':')).drop 1⟩

/-- A text of `n` letters `a`. -/
def hexA (n : Nat) : String := ⟨List.replicate n 'a'⟩

end digest

namespace storage

/-- Modelled from the spec: the struct `storage.Input` (package `storage` is
not among the sources); its fields are the ones `postgres.go` reads: the
locator and the fingerprint text. -/
structure Input where
  URL : String
  Digest : String
deriving DecidableEq, Repr

/-- Modelled from the spec: the struct `storage.Output`, with the fields
`postgres.go` reads. `UploadDuration` is a `time.Duration`, a count of
nanoseconds. -/
structure Output where
  Name : String
  Type_ : String
  Digest : digest.Digest
  SizeBytes : Int
  URI : String
  UploadDuration : Int
deriving DecidableEq, Repr

/-- Modelled from the spec: the struct `storage.Build`, with the fields
`postgres.go` reads; time stamps are abstract integers. -/
structure Build where
  AppName : String
  StartTimeStamp : Int
  StopTimeStamp : Int
  TotalInputDigest : String
  Outputs : List Output
  Inputs : List Input
deriving DecidableEq, Repr

/-- Modelled from the spec: the method `Build.AppNameLower` (its body is not
among the sources): the application name, lower-cased (letter by letter, the
letters `A` to `Z`). -/
def Build.AppNameLower (b : Build) : String := ⟨b.AppName.data.map Char.toLower⟩

end storage

namespace postgres

open storage

/-! ## The store

The tables of the schema, `id` columns filled from sequences, and the
constraints the schema declares: primary keys, the unique natural keys and
the foreign keys. The schema itself is not among the sources; tables, columns
and constraints are the ones the statements of `postgres.go` name and the
specification lists.

The database server is modelled as far as `postgres.go` talks to it: a
transaction sees the committed rows plus its own inserts; a statement that
fails leaves the transaction in the failed state, in which every statement
but `ROLLBACK TO` is refused; `ROLLBACK TO` a savepoint restores the rows
saved under it; committing a failed transaction rolls it back. Failures that
do not follow from the rows (a dropped connection, a timeout, a constraint on
a column outside this model) are given by a fault schedule, one flag per
statement sent and one for `Begin`, `Commit` and `Rollback` each. A commit
that fails commits nothing. Calls run one after the other. -/

structure ApplicationRow where
  id : Int
  name : String
deriving DecidableEq, Repr

structure BuildRow where
  id : Int
  application_id : Int
  start_timestamp : Int
  stop_timestamp : Int
  total_src_digest : String
deriving DecidableEq, Repr

structure OutputRow where
  id : Int
  name : String
  type_ : String
  digest : String
  size_bytes : Int
deriving DecidableEq, Repr

structure InputRow where
  id : Int
  url : String
  digest : String
deriving DecidableEq, Repr

/-- A row of `input_build`; `INSERT into input_build VALUES($1, $2)` fills the
columns by position. -/
structure InputBuildRow where
  build_id : Int
  input_id : Int
deriving DecidableEq, Repr

/-- A row of `output_build`, columns filled by position. -/
structure OutputBuildRow where
  build_id : Int
  output_id : Int
deriving DecidableEq, Repr

structure UploadRow where
  id : Int
  output_id : Int
  uri : String
  upload_duration_msec : Int
deriving DecidableEq, Repr

/-- The rows of the seven tables, each in insertion order. -/
structure Tables where
  application : List ApplicationRow
  build : List BuildRow
  output : List OutputRow
  input : List InputRow
  input_build : List InputBuildRow
  output_build : List OutputBuildRow
  upload : List UploadRow
deriving DecidableEq, Repr

/-- The next value of each table's `id` sequence. Sequences are not
transactional: a value that was handed out is not handed out again. -/
structure Seqs where
  application : Int
  build : Int
  output : Int
  input : Int
  upload : Int
deriving DecidableEq, Repr

/-- The errors the server reports for a statement. -/
inductive SqlError where
  | failedTx
  | uniqueViolation
  | foreignKeyViolation
  | noSavepoint
  | other
deriving DecidableEq, Repr

/-- The data statements `postgres.go` sends, with their arguments. -/
inductive Query where
  | insertApplication (name : String)
  | selectApplication (name : String)
  | insertBuild (application_id start_timestamp stop_timestamp : Int) (total_src_digest : String)
  | insertOutput (name type_ digest : String) (size_bytes : Int)
  | selectOutput (name digest : String) (size_bytes : Int)
  | insertInput (url digest : String)
  | selectInput (url digest : String)
  | insertInputBuild (c1 c2 : Int)
  | insertOutputBuild (c1 c2 : Int)
  | insertUpload (output_id : Int) (uri : String) (upload_duration_msec : Int)
deriving DecidableEq, Repr

/-- A statement sent on a transaction: `SAVEPOINT name`, `ROLLBACK TO name`,
or a data statement. -/
inductive Stmt where
  | savepoint (name : Nat)
  | rollbackTo (name : Nat)
  | dml (q : Query)
deriving DecidableEq, Repr

/-- The server's evaluation of a data statement on the rows a transaction
sees: the sequences afterwards, and either an error or the returned `id`s
with the new rows. An `INSERT ... RETURNING id` draws the id from the
sequence (also when the insert then fails) and returns it; a `SELECT id`
returns the ids of the matching rows. -/
def Query.run (q : Query) (t : Tables) (sq : Seqs) :
    Seqs × Except SqlError (List Int × Tables) :=
  match q with
  | .insertApplication name =>
    ({ sq with application := sq.application + 1 },
      if ∃ r ∈ t.application, r.id = sq.application ∨ r.name = name then
        .error .uniqueViolation
      else
        .ok ([sq.application],
          { t with application := t.application ++ [⟨sq.application, name⟩] }))
  | .selectApplication name =>
    (sq, .ok (((t.application.filter (fun r => r.name = name)).map (·.id)), t))
  | .insertBuild a st sp d =>
    ({ sq with build := sq.build + 1 },
      if ∃ r ∈ t.build, r.id = sq.build then .error .uniqueViolation
      else if ¬ ∃ r ∈ t.application, r.id = a then .error .foreignKeyViolation
      else .ok ([sq.build], { t with build := t.build ++ [⟨sq.build, a, st, sp, d⟩] }))
  | .insertOutput n ty d sz =>
    ({ sq with output := sq.output + 1 },
      if ∃ r ∈ t.output, r.id = sq.output ∨ (r.name = n ∧ r.digest = d ∧ r.size_bytes = sz) then
        .error .uniqueViolation
      else
        .ok ([sq.output], { t with output := t.output ++ [⟨sq.output, n, ty, d, sz⟩] }))
  | .selectOutput n d sz =>
    (sq, .ok (((t.output.filter
      (fun r => r.name = n ∧ r.digest = d ∧ r.size_bytes = sz)).map (·.id)), t))
  | .insertInput u d =>
    ({ sq with input := sq.input + 1 },
      if ∃ r ∈ t.input, r.id = sq.input ∨ (r.url = u ∧ r.digest = d) then
        .error .uniqueViolation
      else
        .ok ([sq.input], { t with input := t.input ++ [⟨sq.input, u, d⟩] }))
  | .selectInput u d =>
    (sq, .ok (((t.input.filter (fun r => r.url = u ∧ r.digest = d)).map (·.id)), t))
  | .insertInputBuild c1 c2 =>
    (sq,
      if ¬ ((∃ r ∈ t.build, r.id = c1) ∧ ∃ r ∈ t.input, r.id = c2) then
        .error .foreignKeyViolation
      else .ok ([], { t with input_build := t.input_build ++ [⟨c1, c2⟩] }))
  | .insertOutputBuild c1 c2 =>
    (sq,
      if ¬ ((∃ r ∈ t.build, r.id = c1) ∧ ∃ r ∈ t.output, r.id = c2) then
        .error .foreignKeyViolation
      else .ok ([], { t with output_build := t.output_build ++ [⟨c1, c2⟩] }))
  | .insertUpload o uri ms =>
    ({ sq with upload := sq.upload + 1 },
      if ∃ r ∈ t.upload, r.id = sq.upload then .error .uniqueViolation
      else if ¬ ∃ r ∈ t.output, r.id = o then .error .foreignKeyViolation
      else .ok ([sq.upload], { t with upload := t.upload ++ [⟨sq.upload, o, uri, ms⟩] }))

/-- Whether a transaction accepts statements, or is in the failed state a
statement error leaves it in. -/
inductive TxStatus where
  | active
  | failed
deriving DecidableEq, Repr

/-- A statement that was sent and what the server answered. -/
structure Event where
  stmt : Stmt
  result : Except SqlError (List Int)

/-- The `id` a statement returned in its first row, if any. -/
def Event.returned (e : Event) : Option Int :=
  match e.result with
  | .ok (id :: _) => some id
  | _ => none

/-- An open transaction `*sql.Tx`: the rows committed when it began, the rows
it sees now, the sequences, its savepoints (newest first), the failures that
are still to strike its statements (one flag per statement sent; `true`: the
statement fails for a reason of its own, such as a constraint the schema adds
or a timeout), the counter behind `xid.New()`, and the statements sent so far. -/
structure Tx where
  base : Tables
  cur : Tables
  seqs : Seqs
  status : TxStatus
  savepoints : List (Nat × Tables)
  faults : List Bool
  xid : Nat
  log : List Event

/-- What a statement does to the transaction, the log apart. A statement the
fault schedule strikes, or one that violates a constraint, fails and leaves
the transaction failed; a failed transaction refuses every statement but
`ROLLBACK TO`, which restores the rows saved under the name and makes the
transaction usable again. -/
def Tx.apply (tx : Tx) (s : Stmt) (fault : Bool) : Except SqlError (List Int) × Tx :=
  if fault then (.error .other, { tx with status := .failed })
  else
    match s with
    | .rollbackTo n =>
      match tx.savepoints.dropWhile (fun sp => sp.1 ≠ n) with
      | [] => (.error .noSavepoint, { tx with status := .failed })
      | sp :: older =>
        (.ok [], { tx with cur := sp.2, status := .active, savepoints := sp :: older })
    | .savepoint n =>
      if tx.status = .failed then (.error .failedTx, tx)
      else (.ok [], { tx with savepoints := (n, tx.cur) :: tx.savepoints })
    | .dml q =>
      if tx.status = .failed then (.error .failedTx, tx)
      else
        match q.run tx.cur tx.seqs with
        | (sq, .error e) => (.error e, { tx with seqs := sq, status := .failed })
        | (sq, .ok (ids, t)) => (.ok ids, { tx with seqs := sq, cur := t })

/-- The server runs one statement of a transaction: the next flag of the
fault schedule is consumed, the statement is applied and logged. -/
def Tx.run (tx : Tx) (s : Stmt) : Except SqlError (List Int) × Tx :=
  let r := Tx.apply { tx with faults := tx.faults.tail } s (tx.faults.headD false)
  (r.1, { r.2 with log := r.2.log ++ [⟨s, r.1⟩] })

/-- A Go `error` value of this package. -/
inductive Err where
  | server (e : SqlError)
  | ErrNoRows
  | wrap (msg : String) (cause : Err)
deriving DecidableEq, Repr

/-- The call `tx.Exec(stmt, args...)`: only the error is used. -/
def Tx.Exec (tx : Tx) (s : Stmt) : Option Err × Tx :=
  match tx.run s with
  | (.ok _, tx) => (none, tx)
  | (.error e, tx) => (some (.server e), tx)

/-- The calls `r := tx.QueryRow(stmt, args...); r.Scan(&id)`: the id of the
first returned row, `sql.ErrNoRows` when there is none. -/
def Tx.QueryRowScan (tx : Tx) (s : Stmt) : Except Err Int × Tx :=
  match tx.run s with
  | (.ok (id :: _), tx) => (.ok id, tx)
  | (.ok [], tx) => (.error .ErrNoRows, tx)
  | (.error e, tx) => (.error (.server e), tx)

/-- The call `xid.New()`: a fresh identifier. -/
def Tx.newXid (tx : Tx) : Nat × Tx := (tx.xid, { tx with xid := tx.xid + 1 })

/-- The postgres storage client `Client`: the committed rows and the
sequences of the database behind `c.db`. -/
structure Client where
  tables : Tables
  seqs : Seqs
deriving DecidableEq, Repr

/-- The call `c.db.Begin()`; the first flag of the fault schedule tells
whether it fails. -/
def Client.Begin (c : Client) (faults : List Bool) : Except Err Tx :=
  if faults.headD false then .error (.server .other)
  else
    .ok { base := c.tables, cur := c.tables, seqs := c.seqs, status := .active,
          savepoints := [], faults := faults.tail, xid := 0, log := [] }

/-- The call `tx.Commit()`: its error and the database afterwards. The next
flag of the fault schedule tells whether the commit itself fails (the
connection is lost, say); then `Commit` returns an error and nothing is
committed. The server answers the commit of a failed transaction by rolling
it back, and `Commit` returns an error. Otherwise the rows of the transaction
become the committed rows. -/
def Tx.Commit (tx : Tx) : Option Err × Client :=
  if tx.faults.headD false then
    (some (.server .other), { tables := tx.base, seqs := tx.seqs })
  else if tx.status = .failed then
    (some (.server .failedTx), { tables := tx.base, seqs := tx.seqs })
  else
    (none, { tables := tx.cur, seqs := tx.seqs })

/-- The call `tx.Rollback()`: its error (by the next flag of the fault
schedule) and the database afterwards; the committed rows stay as they were,
also when the call fails. -/
def Tx.Rollback (tx : Tx) : Option Err × Client :=
  (if tx.faults.headD false then some (.server .other) else none,
    { tables := tx.base, seqs := tx.seqs })

/-! ## The functions of `postgres.go` -/

/-- The method `Client.ListBuildsPerApp`: `return nil, nil`. -/
def Client.ListBuildsPerApp (_c : Client) (_appName : String) (_maxResults : Int) :
    List Build × Option Err :=
  ([], none)

/-- The function `insertBuild`. -/
def insertBuild (tx : Tx) (appID : Int) (b : Build) : Except Err Int × Tx :=
  tx.QueryRowScan
    (.dml (.insertBuild appID b.StartTimeStamp b.StopTimeStamp b.TotalInputDigest))

/-- The function `insertInputBuild`. -/
def insertInputBuild (tx : Tx) (buildID inputID : Int) : Option Err × Tx :=
  tx.Exec (.dml (.insertInputBuild buildID inputID))

/-- The function `insertIfNotExist`: the insert under a savepoint, and after
any insert error the rollback to the savepoint and the select. A statement
text with its arguments is one `Stmt`; the wrapped error messages are given
without their formatted arguments. -/
def insertIfNotExist (tx : Tx) (insertStmt selectStmt : Stmt) : Except Err Int × Tx :=
  match tx.newXid with
  | (savepointName, tx) =>
    match tx.Exec (.savepoint savepointName) with
    | (some err, tx) => (.error (.wrap "creating savepoint failed" err), tx)
    | (none, tx) =>
      match tx.QueryRowScan insertStmt with
      | (.ok id, tx) => (.ok id, tx)
      | (.error _insertErr, tx) =>
        match tx.Exec (.rollbackTo savepointName) with
        | (some err, tx) =>
          (.error (.wrap "rolling back transaction after insert error failed" err), tx)
        | (none, tx) =>
          match tx.QueryRowScan selectStmt with
          | (.error err, tx) =>
            (.error (.wrap "selecting input record failed after insert failed" err), tx)
          | (.ok id, tx) => (.ok id, tx)

/-- The function `insertOutputIfNotExist`. -/
def insertOutputIfNotExist (tx : Tx) (a : Output) : Except Err Int × Tx :=
  insertIfNotExist tx
    (.dml (.insertOutput a.Name a.Type_ a.Digest.String a.SizeBytes))
    (.dml (.selectOutput a.Name a.Digest.String a.SizeBytes))

/-- The function `insertInputIfNotExist`. -/
def insertInputIfNotExist (tx : Tx) (s : Input) : Except Err Int × Tx :=
  insertIfNotExist tx (.dml (.insertInput s.URL s.Digest)) (.dml (.selectInput s.URL s.Digest))

/-- The function `insertAppIfNotExist`. -/
def insertAppIfNotExist (tx : Tx) (appName : String) : Except Err Int × Tx :=
  insertIfNotExist tx (.dml (.insertApplication appName)) (.dml (.selectApplication appName))

/-- The function `insertOutputBuild`. -/
def insertOutputBuild (tx : Tx) (buildID outputID : Int) : Option Err × Tx :=
  tx.Exec (.dml (.insertOutputBuild buildID outputID))

/-- The constant `time.Millisecond`, in nanoseconds. -/
def Millisecond : Int := 1000000

/-- The function `insertUpload`; `uploadDuration/time.Millisecond` is Go's
integer division, which truncates toward zero. -/
def insertUpload (tx : Tx) (outputID : Int) (url : String) (uploadDuration : Int) :
    Option Err × Tx :=
  tx.Exec (.dml (.insertUpload outputID url (Int.tdiv uploadDuration Millisecond)))

/-- The function `saveOutput`. -/
def saveOutput (tx : Tx) (buildID : Int) (a : Output) : Option Err × Tx :=
  match insertOutputIfNotExist tx a with
  | (.error err, tx) => (some (.wrap "storing output record failed" err), tx)
  | (.ok outputID, tx) =>
    match insertOutputBuild tx buildID outputID with
    | (some err, tx) => (some (.wrap "storing output_build record failed" err), tx)
    | (none, tx) =>
      match insertUpload tx outputID a.URI a.UploadDuration with
      | (some err, tx) => (some (.wrap "storing upload record failed" err), tx)
      | (none, tx) => (none, tx)

/-- The loop `for _, a := range b.Outputs` of `Save`: it returns the first
error of `saveOutput`. -/
def Save.outputs (tx : Tx) (buildID : Int) : List Output → Option Err × Tx
  | [] => (none, tx)
  | a :: rest =>
    match saveOutput tx buildID a with
    | (some err, tx) => (some err, tx)
    | (none, tx) => Save.outputs tx buildID rest

/-- The loop `for _, s := range b.Inputs` of `Save`. -/
def Save.inputs (tx : Tx) (buildID : Int) : List Input → Option Err × Tx
  | [] => (none, tx)
  | s :: rest =>
    match insertInputIfNotExist tx s with
    | (.error err, tx) => (some (.wrap "storing input record failed" err), tx)
    | (.ok inputID, tx) =>
      match insertInputBuild tx buildID inputID with
      | (some err, tx) => (some (.wrap "storing input_build failed" err), tx)
      | (none, tx) => Save.inputs tx buildID rest

/-- How the body of `Save` ends: the error it returns, and the value of the
function-level variable `err`, which is what the deferred function reads. -/
structure SaveReturn where
  ret : Option Err
  err : Option Err
deriving DecidableEq, Repr

/-- The body of `Save` after `Begin`. `appID, err := ...` and
`buildID, err := ...` assign the function-level `err`; the `err` of
`if err := saveOutput(...)` and of `inputID, err := ...` inside the loops are
new variables of the inner scopes, so a failure there leaves the
function-level `err` nil. -/
def Save.body (tx : Tx) (b : Build) : SaveReturn × Tx :=
  match insertAppIfNotExist tx b.AppNameLower with
  | (.error err, tx) =>
    (⟨some (.wrap "storing application record failed" err), some err⟩, tx)
  | (.ok appID, tx) =>
    match insertBuild tx appID b with
    | (.error err, tx) => (⟨some (.wrap "storing build record failed" err), some err⟩, tx)
    | (.ok buildID, tx) =>
      match Save.outputs tx buildID b.Outputs with
      | (some e, tx) => (⟨some e, none⟩, tx)
      | (none, tx) =>
        match Save.inputs tx buildID b.Inputs with
        | (some e, tx) => (⟨some e, none⟩, tx)
        | (none, tx) => (⟨none, none⟩, tx)

/-- The deferred function of `Save`: `tx.Rollback()` if the function-level
`err` is not nil, `tx.Commit()` otherwise; the error of the call and the
database afterwards. -/
def Save.deferred (r : SaveReturn) (tx : Tx) : Option Err × Client :=
  if r.err ≠ none then tx.Rollback else tx.Commit

/-- The method `Client.Save` under a fault schedule: the returned error and
the database afterwards. The deferred function is called as a statement, so
the error of `tx.Commit()` or `tx.Rollback()` is discarded: what `Save`
returns is the error of its body. -/
def Client.Save (c : Client) (faults : List Bool) (b : Build) : Option Err × Client :=
  match c.Begin faults with
  | .error err => (some (.wrap "starting transaction failed" err), c)
  | .ok tx =>
    match Save.body tx b with
    | (r, tx) => (r.ret, (Save.deferred r tx).2)

/-- Whether the transaction of one `Save` was committed: `Begin` succeeded,
the deferred function called `tx.Commit()`, and that call returned no error.
`Save` does not report this to its caller. -/
def Client.SaveCommitted (c : Client) (faults : List Bool) (b : Build) : Bool :=
  match c.Begin faults with
  | .error _ => false
  | .ok tx =>
    match Save.body tx b with
    | (r, tx) => decide (r.err = none ∧ tx.Commit.1 = none)

/-- The statements one `Save` sends, in order, with the server's answers. -/
def Client.SaveLog (c : Client) (faults : List Bool) (b : Build) : List Event :=
  match c.Begin faults with
  | .error _ => []
  | .ok tx => (Save.body tx b).2.log

/-- Every table of `t'` begins with the rows of `t`, in the same order: the
rows of `t` are still there and unchanged, rows were only added. -/
def Tables.Preserved (t t' : Tables) : Prop :=
  t.application <+: t'.application ∧ t.build <+: t'.build ∧ t.output <+: t'.output ∧
    t.input <+: t'.input ∧ t.input_build <+: t'.input_build ∧
    t.output_build <+: t'.output_build ∧ t.upload <+: t'.upload

/-- The rows a transaction sees, and the rows of each of its savepoints,
extend the rows committed when it began. -/
def Tx.Inv (tx : Tx) : Prop :=
  Tables.Preserved tx.base tx.cur ∧ ∀ sp ∈ tx.savepoints, Tables.Preserved tx.base sp.2

/-- Among the statements of `l`, one of the kind `p` returned `id`. -/
def Returned (l : List Event) (p : Stmt → Prop) (id : Int) : Prop :=
  ∃ e ∈ l, p e.stmt ∧ e.returned = some id

/-- The insert and the select of the application insert-or-reuse. -/
def Stmt.isApplicationStep : Stmt → Prop
  | .dml (.insertApplication _) => True
  | .dml (.selectApplication _) => True
  | _ => False

/-- The build insert. -/
def Stmt.isBuildInsert : Stmt → Prop
  | .dml (.insertBuild _ _ _ _) => True
  | _ => False

/-- The insert and the select of an output insert-or-reuse. -/
def Stmt.isOutputStep : Stmt → Prop
  | .dml (.insertOutput _ _ _ _) => True
  | .dml (.selectOutput _ _ _) => True
  | _ => False

/-- The insert and the select of an input insert-or-reuse. -/
def Stmt.isInputStep : Stmt → Prop
  | .dml (.insertInput _ _) => True
  | .dml (.selectInput _ _) => True
  | _ => False

/-- The ids a statement refers to were returned by earlier steps, `pre`
being the statements sent before it: the `application_id` of a build insert
by the application insert-or-reuse, the build id of a join insert by the
build insert and its other id by the output (input) insert-or-reuse, the
`output_id` of an upload insert by the output insert-or-reuse. -/
def Stmt.Justified (pre : List Event) : Stmt → Prop
  | .dml (.insertBuild a _ _ _) => Returned pre Stmt.isApplicationStep a
  | .dml (.insertOutputBuild c1 c2) =>
    Returned pre Stmt.isBuildInsert c1 ∧ Returned pre Stmt.isOutputStep c2
  | .dml (.insertInputBuild c1 c2) =>
    Returned pre Stmt.isBuildInsert c1 ∧ Returned pre Stmt.isInputStep c2
  | .dml (.insertUpload o _ _) => Returned pre Stmt.isOutputStep o
  | _ => True

/-- Dependency order of a log: every statement comes after the steps whose
ids it refers to. -/
def DependencyOrdered (l : List Event) : Prop :=
  ∀ pre e post, l = pre ++ e :: post → e.stmt.Justified pre

/-- The statement `s` was sent and the server answered without an error. -/
def Succeeded (l : List Event) (s : Stmt) : Prop :=
  ∃ ids, (⟨s, .ok ids⟩ : Event) ∈ l

/-- The steps of a whole `Save` of `b` are in the log `l`, each with the id
the earlier step returned: the application insert-or-reuse returned `appID`,
the build insert sent with `appID` returned `buildID`, every output's
insert-or-reuse returned an id with which the `output_build` insert (under
`buildID`) and the upload insert were sent, and every input's
insert-or-reuse returned an id with which the `input_build` insert (under
`buildID`) was sent. -/
def SaveComplete (l : List Event) (b : Build) : Prop :=
  ∃ appID buildID : Int,
    Returned l (fun s => s = .dml (.insertApplication b.AppNameLower) ∨
      s = .dml (.selectApplication b.AppNameLower)) appID ∧
    Returned l
      (fun s => s = .dml (.insertBuild appID b.StartTimeStamp b.StopTimeStamp
        b.TotalInputDigest)) buildID ∧
    (∀ a ∈ b.Outputs, ∃ outputID : Int,
      Returned l (fun s => s = .dml (.insertOutput a.Name a.Type_ a.Digest.String a.SizeBytes) ∨
        s = .dml (.selectOutput a.Name a.Digest.String a.SizeBytes)) outputID ∧
      Succeeded l (.dml (.insertOutputBuild buildID outputID)) ∧
      Succeeded l (.dml (.insertUpload outputID a.URI (Int.tdiv a.UploadDuration Millisecond)))) ∧
    (∀ i ∈ b.Inputs, ∃ inputID : Int,
      Returned l (fun s => s = .dml (.insertInput i.URL i.Digest) ∨
        s = .dml (.selectInput i.URL i.Digest)) inputID ∧
      Succeeded l (.dml (.insertInputBuild buildID inputID)))

/-- The constraints of table `input`: `id` is its primary key and
`(url, digest)` is unique. -/
def InputConstraints (rows : List InputRow) : Prop :=
  rows.Pairwise (fun r r' => r.id ≠ r'.id ∧ ¬ (r.url = r'.url ∧ r.digest = r'.digest))

/-- The data statements that write to `build`, `input` or `input_build`. -/
def Query.writesInputPart : Query → Bool
  | .insertBuild _ _ _ _ => true
  | .insertInput _ _ => true
  | .insertInputBuild _ _ => true
  | _ => false

/-- The tables `build`, `input` and `input_build` are the same in `t` and `t'`. -/
def SameInputPart (t t' : Tables) : Prop :=
  t'.build = t.build ∧ t'.input = t.input ∧ t'.input_build = t.input_build

/-- The join row `j` links the build `buildID` to a row of `rows` that has the
natural key of the input `i`. -/
def JoinsInput (rows : List InputRow) (buildID : Int) (i : Input) (j : InputBuildRow) : Prop :=
  j.build_id = buildID ∧ ∃ r ∈ rows, r.id = j.input_id ∧ r.url = i.URL ∧ r.digest = i.Digest

/-- The input of the spec's scenario: `build.sh` with a sha256 fingerprint. -/
def scenarioInput : Input := ⟨"build.sh", "sha256:" ++ digest.hexA 64⟩

/-- A build with the scenario's input as its only input. -/
def buildOnce : Build := ⟨"svc-a", 0, 1, "", [], [scenarioInput]⟩

/-- A build that lists the scenario's input twice. -/
def buildTwice : Build := ⟨"svc-a", 0, 1, "", [], [scenarioInput, scenarioInput]⟩

/-- The output of the spec's scenario: `bin`, a file of 1024 bytes uploaded
to `s3://bucket/bin` in 1200ms. -/
def scenarioOutput : Output :=
  ⟨"bin", "file", ⟨digest.hexA 64, digest.SHA256⟩, 1024, "s3://bucket/bin", 1200000000⟩

/-- The build of the spec's scenario, for application `svc-a`. -/
def scenarioBuild : Build := ⟨"svc-a", 0, 1, "", [scenarioOutput], []⟩

/-- The store with no rows, every sequence at 1. -/
def emptyClient : Client :=
  { tables := ⟨[], [], [], [], [], [], []⟩, seqs := ⟨1, 1, 1, 1, 1⟩ }

/-- The number `q` is the integer quotient of `d` by `n` truncated toward
zero: for `d` at or above zero the largest multiple of `n` not above `d` is
`q * n`, for `d` at or below zero the smallest multiple of `n` not below `d`
is `q * n`. -/
def TruncatedQuotient (d n q : Int) : Prop :=
  (0 ≤ d → q * n ≤ d ∧ d < (q + 1) * n) ∧ (d ≤ 0 → (q - 1) * n < d ∧ d ≤ q * n)

/-- A transaction begun on the store that holds the scenario build, with no
faults ahead. -/
def scenarioTx : Tx :=
  { base := (emptyClient.Save [] scenarioBuild).2.tables,
    cur := (emptyClient.Save [] scenarioBuild).2.tables,
    seqs := (emptyClient.Save [] scenarioBuild).2.seqs,
    status := .active, savepoints := [], faults := [], xid := 0, log := [] }

end postgres

namespace digest

theorem splitChars_ne_nil (sep : Char) (l : List Char) : splitChars sep l ≠ [] := by
  cases l with
  | nil => simp [splitChars]
  | cons c cs =>
    unfold splitChars
    split
    · simp
    · split <;> simp

theorem splitChars_single (sep : Char) :
    ∀ (l a : List Char), splitChars sep l = [a] → l = a ∧ sep ∉ a := by
  intro l
  induction l with
  | nil => intro a h; simp [splitChars] at h; subst h; simp
  | cons c cs ih =>
    intro a h
    unfold splitChars at h
    split at h
    · simp at h
      exact absurd h.2 (splitChars_ne_nil sep cs)
    · rename_i hc
      split at h
      · rename_i hnil
        exact absurd hnil (splitChars_ne_nil sep cs)
      · rename_i p ps hp
        simp at h
        obtain ⟨h1, h2⟩ := h
        subst h2
        obtain ⟨e1, e2⟩ := ih p hp
        subst h1
        refine ⟨by rw [e1], ?_⟩
        simp only [List.mem_cons, not_or]
        exact ⟨fun h => hc h.symm, e2⟩

theorem splitChars_pair (sep : Char) :
    ∀ (l a b : List Char), splitChars sep l = [a, b] →
      l = a ++ sep :: b ∧ sep ∉ a ∧ sep ∉ b := by
  intro l
  induction l with
  | nil => intro a b h; simp [splitChars] at h
  | cons c cs ih =>
    intro a b h
    unfold splitChars at h
    split at h
    · rename_i hc
      simp at h
      obtain ⟨h1, h2⟩ := h
      obtain ⟨e1, e2⟩ := splitChars_single sep cs b h2
      subst h1
      subst hc
      simp [e1, e2]
    · rename_i hc
      split at h
      · rename_i hnil
        exact absurd hnil (splitChars_ne_nil sep cs)
      · rename_i p ps hp
        simp at h
        obtain ⟨h1, h2⟩ := h
        subst h2
        obtain ⟨e1, e2, e3⟩ := ih p b hp
        subst h1
        refine ⟨by rw [e1]; rfl, ?_, e3⟩
        simp only [List.mem_cons, not_or]
        exact ⟨fun h => hc h.symm, e2⟩

theorem splitChars_of_not_mem (sep : Char) :
    ∀ (l : List Char), sep ∉ l → splitChars sep l = [l] := by
  intro l
  induction l with
  | nil => intro _; rfl
  | cons c cs ih =>
    intro h
    simp only [List.mem_cons, not_or] at h
    unfold splitChars
    rw [if_neg (fun e => h.1 e.symm), ih h.2]

theorem splitChars_append_sep (sep : Char) (b : List Char) (hb : sep ∉ b) :
    ∀ (a : List Char), sep ∉ a → splitChars sep (a ++ sep :: b) = [a, b] := by
  intro a
  induction a with
  | nil =>
    intro _
    simp [splitChars, splitChars_of_not_mem sep b hb]
  | cons c cs ih =>
    intro h
    simp only [List.mem_cons, not_or] at h
    show splitChars sep (c :: (cs ++ sep :: b)) = _
    unfold splitChars
    rw [if_neg (fun e => h.1 e.symm), ih h.2]

/-- What a successful `FromString` knows about the trimmed text. -/
theorem FromString_ok_inv (t : String) (d : Digest) (h : FromString t = .ok d) :
    (TrimSpace t).data = "sha256".data ++ ':' :: d.Sum.data ∧ ':' ∉ d.Sum.data ∧
      len d.Sum = 64 ∧ d.Type_ = SHA256 := by
  unfold FromString at h
  split at h
  · rename_i spl0 spl1 hs
    split at h
    · cases h
    · rename_i h0
      split at h
      · cases h
      · rename_i h1
        simp only [ne_eq, Decidable.not_not] at h0 h1
        injection h with h
        subst h
        subst h0
        have hs2 : splitChars ':' (TrimSpace t).data = ["sha256".data, spl1.data] := by
          unfold Split at hs
          generalize splitChars ':' (TrimSpace t).data = L at hs
          match L, hs with
          | [], hs => simp at hs
          | [_], hs => simp at hs
          | _ :: _ :: _ :: _, hs => simp at hs
          | [x, y], hs =>
            simp only [List.map_cons, List.map_nil, List.cons.injEq, and_true] at hs
            rw [← hs.1, ← hs.2]
        obtain ⟨e1, _, e3⟩ := splitChars_pair ':' _ _ _ hs2
        exact ⟨e1, e3, h1, rfl⟩
  · cases h

theorem dropWhile_reverse_concat (p : Char → Bool) (l : List Char) (x : Char)
    (hx : p x = false) : ((l ++ [x]).reverse.dropWhile p).reverse = l ++ [x] := by
  simp [List.dropWhile, hx]

theorem TrimSpace_sha256_prefix (sum : String) (hne : sum.data ≠ [])
    (hs : ∀ c, sum.data.getLast? = some c → IsSpace c = false) :
    TrimSpace ("sha256" ++ ":" ++ sum) = "sha256" ++ ":" ++ sum := by
  obtain ⟨init, x, hx⟩ : ∃ init x, sum.data = init ++ [x] :=
    ⟨sum.data.dropLast, sum.data.getLast hne, (List.dropLast_append_getLast hne).symm⟩
  have hsp : IsSpace x = false := hs x (by rw [hx]; simp)
  apply String.ext
  have hd : ("sha256" ++ ":" ++ sum).data = ('s' :: 'h' :: 'a' :: '2' :: '5' :: '6' :: ':' :: init) ++ [x] := by
    simp only [String.data_append, hx]
    rfl
  unfold TrimSpace
  rw [hd]
  have h1 : List.dropWhile IsSpace (('s' :: 'h' :: 'a' :: '2' :: '5' :: '6' :: ':' :: init) ++ [x])
      = ('s' :: 'h' :: 'a' :: '2' :: '5' :: '6' :: ':' :: init) ++ [x] := by
    show List.dropWhile IsSpace ('s' :: _) = _
    rw [List.dropWhile_cons_of_neg (by decide)]
    rfl
  rw [h1]
  exact dropWhile_reverse_concat IsSpace _ x hsp

/-- C2, as stated, fails: a text with leading white space is accepted by
`FromString`, and formatting the result does not give the text back. -/
theorem FromString_String_not_identity :
    FromString (" sha256:" ++ hexA 64) = .ok ⟨hexA 64, SHA256⟩ ∧
      Digest.String ⟨hexA 64, SHA256⟩ ≠ " sha256:" ++ hexA 64 := by
  refine ⟨rfl, by decide⟩

/-- C2, amended: for every text `t` on which `FromString` succeeds, `String()`
of the returned digest is `t` with its leading and trailing white space
removed. -/
theorem FromString_String_eq_TrimSpace (t : String) (d : Digest)
    (h : FromString t = .ok d) : d.String = TrimSpace t := by
  obtain ⟨e1, _, _, e4⟩ := FromString_ok_inv t d h
  apply String.ext
  rw [e1]
  unfold Digest.String
  rw [e4]
  simp only [String.data_append]
  rfl

/-- C2, amended, at a text with a leading tab. -/
theorem FromString_String_eq_TrimSpace_witness :
    FromString ("\tsha256:" ++ hexA 64) = .ok ⟨hexA 64, SHA256⟩ ∧
      Digest.String ⟨hexA 64, SHA256⟩ = TrimSpace ("\tsha256:" ++ hexA 64) :=
  ⟨rfl, FromString_String_eq_TrimSpace _ _ rfl⟩

/-- C3, as stated, fails: in a text that ends in a newline the part after the
separator is 65 long, and `FromString` still returns a digest. -/
theorem FromString_accepts_padded_text :
    (sepCount ("sha256:" ++ hexA 64 ++ "\n") ≠ 1 ∨
      partBefore ("sha256:" ++ hexA 64 ++ "\n") ≠ "sha256" ∨
      len (partAfter ("sha256:" ++ hexA 64 ++ "\n")) ≠ 64) ∧
    FromString ("sha256:" ++ hexA 64 ++ "\n") = .ok ⟨hexA 64, SHA256⟩ := by
  refine ⟨Or.inr (Or.inr (by decide)), rfl⟩

/-- C3, amended: for every text `t`, `FromString t` returns an error (and no
digest) if `t` with its leading and trailing white space removed does not
contain exactly one `:` separator, or its part before the separator is not
`sha256`, or its part after the separator is not exactly 64 bytes long. -/
theorem FromString_rejects (t : String)
    (h : sepCount (TrimSpace t) ≠ 1 ∨ partBefore (TrimSpace t) ≠ "sha256" ∨
      len (partAfter (TrimSpace t)) ≠ 64) :
    ∃ e, FromString t = .error e := by
  cases hf : FromString t with
  | error e => exact ⟨e, rfl⟩
  | ok d =>
    exfalso
    obtain ⟨e1, e2, e3, _⟩ := FromString_ok_inv t d hf
    have hcnt : sepCount (TrimSpace t) = 1 := by
      unfold sepCount
      rw [e1, List.count_append, List.count_cons_self, List.count_eq_zero_of_not_mem e2]
      rfl
    have hbef : partBefore (TrimSpace t) = "sha256" := by
      unfold partBefore
      rw [e1]
      rfl
    have haft : partAfter (TrimSpace t) = d.Sum := by
      unfold partAfter
      rw [e1]
      rfl
    rcases h with h | h | h
    · exact h hcnt
    · exact h hbef
    · rw [haft] at h
      exact h e3

/-- C3, amended, at a text with 63 characters after the separator. -/
theorem FromString_rejects_witness :
    len (partAfter (TrimSpace ("sha256:" ++ hexA 63))) ≠ 64 ∧
      ∃ e, FromString ("sha256:" ++ hexA 63) = .error e :=
  ⟨by decide, FromString_rejects _ (Or.inr (Or.inr (by decide)))⟩

/-- C8, as stated, fails: a SHA256 digest whose 64-long sum ends in `:` is
formatted to a text that `FromString` rejects. -/
theorem FromString_String_rejects_colon_sum :
    (⟨hexA 63 ++ ":", SHA256⟩ : Digest).Type_ = SHA256 ∧
      len (⟨hexA 63 ++ ":", SHA256⟩ : Digest).Sum = 64 ∧
      FromString (Digest.String ⟨hexA 63 ++ ":", SHA256⟩)
        = .error "invalid format, must contain exactly 1 ':'" := by
  refine ⟨rfl, by decide, rfl⟩

/-- C8, amended: for every digest `d` whose type is SHA256 and whose sum is 64
bytes long, contains no `:` and does not end in white space,
`FromString (d.String())` succeeds and returns a digest equal to `d`. -/
theorem FromString_String_roundtrip (d : Digest) (hT : d.Type_ = SHA256)
    (hL : len d.Sum = 64) (hc : ':' ∉ d.Sum.data)
    (hs : ∀ c, d.Sum.data.getLast? = some c → IsSpace c = false) :
    FromString d.String = .ok d := by
  obtain ⟨sum, ty⟩ := d
  simp only at hT hL hc hs
  subst hT
  have hne : sum.data ≠ [] := by
    intro h0
    have : sum = "" := String.ext h0
    rw [this] at hL
    exact absurd hL (by decide)
  have htrim := TrimSpace_sha256_prefix sum hne hs
  have hsplit : Split ("sha256" ++ ":" ++ sum) ':' = ["sha256", sum] := by
    unfold Split
    have hd : ("sha256" ++ ":" ++ sum).data = "sha256".data ++ ':' :: sum.data := by
      simp only [String.data_append]
      rfl
    rw [hd, splitChars_append_sep ':' sum.data hc "sha256".data (by decide)]
    rfl
  unfold FromString Digest.String
  show (match Split (TrimSpace ("sha256" ++ ":" ++ sum)) ':' with
    | [spl0, spl1] => _
    | _ => _) = _
  rw [htrim, hsplit]
  simp [hL]

/-- C8, amended, at the digest with 64 letters `a`. -/
theorem FromString_String_roundtrip_witness :
    FromString (Digest.String ⟨hexA 64, SHA256⟩) = .ok ⟨hexA 64, SHA256⟩ :=
  FromString_String_roundtrip ⟨hexA 64, SHA256⟩ rfl (by decide) (by decide) (by decide)

end digest

namespace postgres

open storage

/-! ## Every function only sends statements -/

/-- The transaction `b` is reached from `a` by sending statements and drawing
identifiers. -/
inductive Tx.Reach : Tx → Tx → Prop where
  | refl (a : Tx) : Tx.Reach a a
  | run {a b : Tx} (s : Stmt) : Tx.Reach a b → Tx.Reach a (b.run s).2
  | xid {a b : Tx} : Tx.Reach a b → Tx.Reach a b.newXid.2

theorem Tx.Reach.reach_trans {a b c : Tx} (h1 : Tx.Reach a b) (h2 : Tx.Reach b c) : Tx.Reach a c := by
  induction h2 with
  | refl => exact h1
  | run s _ ih => exact Tx.Reach.run s ih
  | xid _ ih => exact Tx.Reach.xid ih

theorem Tx.Reach.one (a : Tx) (s : Stmt) : Tx.Reach a (a.run s).2 :=
  Tx.Reach.run s (Tx.Reach.refl a)

theorem Tx.Exec_reach (tx : Tx) (s : Stmt) : Tx.Reach tx (tx.Exec s).2 := by
  have h := Tx.Reach.one tx s
  unfold Tx.Exec
  split <;> rename_i heq <;> rw [heq] at h <;> exact h

theorem Tx.QueryRowScan_reach (tx : Tx) (s : Stmt) : Tx.Reach tx (tx.QueryRowScan s).2 := by
  have h := Tx.Reach.one tx s
  unfold Tx.QueryRowScan
  split <;> rename_i heq <;> rw [heq] at h <;> exact h

theorem Tx.Reach.reach_of_eq {α : Type} {a c : Tx} {x : α} {r : α × Tx} (h : Tx.Reach a r.2)
    (e : r = (x, c)) : Tx.Reach a c := by
  subst e; exact h

theorem insertIfNotExist_reach (tx : Tx) (i s : Stmt) :
    Tx.Reach tx (insertIfNotExist tx i s).2 := by
  unfold insertIfNotExist
  split
  rename_i n tx1 h1
  have r1 : Tx.Reach tx tx1 := (Tx.Reach.xid (Tx.Reach.refl tx)).reach_of_eq h1
  split
  · rename_i err tx2 h2
    exact r1.reach_trans ((Tx.Exec_reach tx1 _).reach_of_eq h2)
  · rename_i tx2 h2
    have r2 := r1.reach_trans ((Tx.Exec_reach tx1 _).reach_of_eq h2)
    split
    · rename_i id tx3 h3
      exact r2.reach_trans ((Tx.QueryRowScan_reach tx2 _).reach_of_eq h3)
    · rename_i e tx3 h3
      have r3 := r2.reach_trans ((Tx.QueryRowScan_reach tx2 _).reach_of_eq h3)
      split
      · rename_i err tx4 h4
        exact r3.reach_trans ((Tx.Exec_reach tx3 _).reach_of_eq h4)
      · rename_i tx4 h4
        have r4 := r3.reach_trans ((Tx.Exec_reach tx3 _).reach_of_eq h4)
        split
        · rename_i err tx5 h5
          exact r4.reach_trans ((Tx.QueryRowScan_reach tx4 _).reach_of_eq h5)
        · rename_i id tx5 h5
          exact r4.reach_trans ((Tx.QueryRowScan_reach tx4 _).reach_of_eq h5)

theorem saveOutput_reach (tx : Tx) (buildID : Int) (a : Output) :
    Tx.Reach tx (saveOutput tx buildID a).2 := by
  unfold saveOutput
  split
  · rename_i err tx1 h1
    exact (insertIfNotExist_reach tx _ _).reach_of_eq h1
  · rename_i id tx1 h1
    have r1 : Tx.Reach tx tx1 := (insertIfNotExist_reach tx _ _).reach_of_eq h1
    split
    · rename_i err tx2 h2
      exact r1.reach_trans ((Tx.Exec_reach tx1 _).reach_of_eq h2)
    · rename_i tx2 h2
      have r2 := r1.reach_trans ((Tx.Exec_reach tx1 _).reach_of_eq h2)
      split
      · rename_i err tx3 h3
        exact r2.reach_trans ((Tx.Exec_reach tx2 _).reach_of_eq h3)
      · rename_i tx3 h3
        exact r2.reach_trans ((Tx.Exec_reach tx2 _).reach_of_eq h3)

theorem Save.outputs_reach (buildID : Int) (l : List Output) :
    ∀ tx : Tx, Tx.Reach tx (Save.outputs tx buildID l).2 := by
  induction l with
  | nil => intro tx; exact Tx.Reach.refl tx
  | cons a rest ih =>
    intro tx
    unfold Save.outputs
    split
    · rename_i err tx1 h1
      exact (saveOutput_reach tx buildID a).reach_of_eq h1
    · rename_i tx1 h1
      exact ((saveOutput_reach tx buildID a).reach_of_eq h1).reach_trans (ih tx1)

theorem Save.inputs_reach (buildID : Int) (l : List Input) :
    ∀ tx : Tx, Tx.Reach tx (Save.inputs tx buildID l).2 := by
  induction l with
  | nil => intro tx; exact Tx.Reach.refl tx
  | cons a rest ih =>
    intro tx
    unfold Save.inputs
    split
    · rename_i err tx1 h1
      exact (insertIfNotExist_reach tx _ _).reach_of_eq h1
    · rename_i id tx1 h1
      have r1 : Tx.Reach tx tx1 := (insertIfNotExist_reach tx _ _).reach_of_eq h1
      split
      · rename_i err tx2 h2
        exact r1.reach_trans ((Tx.Exec_reach tx1 _).reach_of_eq h2)
      · rename_i tx2 h2
        exact (r1.reach_trans ((Tx.Exec_reach tx1 _).reach_of_eq h2)).reach_trans (ih tx2)

theorem Save.body_reach (tx : Tx) (b : Build) : Tx.Reach tx (Save.body tx b).2 := by
  unfold Save.body
  split
  · rename_i err tx1 h1
    exact (insertIfNotExist_reach tx _ _).reach_of_eq h1
  · rename_i id tx1 h1
    have r1 : Tx.Reach tx tx1 := (insertIfNotExist_reach tx _ _).reach_of_eq h1
    split
    · rename_i err tx2 h2
      exact r1.reach_trans ((Tx.QueryRowScan_reach tx1 _).reach_of_eq h2)
    · rename_i bid tx2 h2
      have r2 := r1.reach_trans ((Tx.QueryRowScan_reach tx1 _).reach_of_eq h2)
      split
      · rename_i err tx3 h3
        exact r2.reach_trans ((Save.outputs_reach bid _ tx2).reach_of_eq h3)
      · rename_i tx3 h3
        have r3 := r2.reach_trans ((Save.outputs_reach bid _ tx2).reach_of_eq h3)
        split
        · rename_i err tx4 h4
          exact r3.reach_trans ((Save.inputs_reach bid _ tx3).reach_of_eq h4)
        · rename_i tx4 h4
          exact r3.reach_trans ((Save.inputs_reach bid _ tx3).reach_of_eq h4)

end postgres

namespace postgres

open storage

/-! ## Rows are only added -/

theorem Tables.Preserved.refl (t : Tables) : Tables.Preserved t t :=
  ⟨List.prefix_refl _, List.prefix_refl _, List.prefix_refl _, List.prefix_refl _,
    List.prefix_refl _, List.prefix_refl _, List.prefix_refl _⟩

theorem Tables.Preserved.preserved_trans {a b c : Tables} (h1 : Tables.Preserved a b)
    (h2 : Tables.Preserved b c) : Tables.Preserved a c :=
  ⟨h1.1.trans h2.1, h1.2.1.trans h2.2.1, h1.2.2.1.trans h2.2.2.1,
    h1.2.2.2.1.trans h2.2.2.2.1, h1.2.2.2.2.1.trans h2.2.2.2.2.1,
    h1.2.2.2.2.2.1.trans h2.2.2.2.2.2.1, h1.2.2.2.2.2.2.trans h2.2.2.2.2.2.2⟩

theorem Query.run_preserved (q : Query) (t t' : Tables) (sq : Seqs) (ids : List Int)
    (h : (q.run t sq).2 = .ok (ids, t')) : Tables.Preserved t t' := by
  cases q <;> simp only [Query.run] at h <;>
    first
    | (split at h
       · cases h
       · first
         | (injection h with h; injection h with _ h; subst h
            simp [Tables.Preserved])
         | (split at h
            · cases h
            · injection h with h; injection h with _ h; subst h
              simp [Tables.Preserved]))
    | (injection h with h; injection h with _ h; subst h
       exact Tables.Preserved.refl _)

theorem Tx.apply_base (tx : Tx) (s : Stmt) (f : Bool) : (Tx.apply tx s f).2.base = tx.base := by
  unfold Tx.apply
  split
  · rfl
  · split
    · split <;> rfl
    · split <;> rfl
    · split
      · rfl
      · split <;> rfl

theorem Tx.apply_inv (tx : Tx) (s : Stmt) (f : Bool) (h : tx.Inv) : (Tx.apply tx s f).2.Inv := by
  unfold Tx.apply
  split
  · exact h
  · split
    · split
      · exact h
      · rename_i sp older hd
        have hsub : ∀ x ∈ sp :: older, x ∈ tx.savepoints := by
          intro x hx
          rw [← hd] at hx
          exact (List.dropWhile_sublist _).subset hx
        exact ⟨h.2 sp (hsub sp (List.mem_cons_self _ _)), fun x hx => h.2 x (hsub x hx)⟩
    · split
      · exact h
      · refine ⟨h.1, ?_⟩
        intro x hx
        simp only [List.mem_cons] at hx
        rcases hx with hx | hx
        · subst hx; exact h.1
        · exact h.2 x hx
    · split
      · exact h
      · split
        · exact h
        · rename_i sq ids t hq
          exact ⟨h.1.preserved_trans (Query.run_preserved _ tx.cur t tx.seqs ids (by rw [hq])), h.2⟩

theorem Tx.run_base (tx : Tx) (s : Stmt) : (tx.run s).2.base = tx.base := by
  simp only [Tx.run]
  exact Tx.apply_base _ s _

theorem Tx.run_inv (tx : Tx) (s : Stmt) (h : tx.Inv) : (tx.run s).2.Inv := by
  have := Tx.apply_inv { tx with faults := tx.faults.tail } s (tx.faults.headD false) h
  exact this

theorem Tx.Reach.base {a b : Tx} (h : Tx.Reach a b) : b.base = a.base := by
  induction h with
  | refl => rfl
  | run s _ ih => rw [Tx.run_base, ih]
  | xid _ ih => exact ih

theorem Tx.Reach.inv {a b : Tx} (h : Tx.Reach a b) (ha : a.Inv) : b.Inv := by
  induction h with
  | refl => exact ha
  | run s _ ih => exact Tx.run_inv _ s ih
  | xid _ ih => exact ih

theorem Tx.Commit_preserved (tx : Tx) (h : tx.Inv) :
    Tables.Preserved tx.base tx.Commit.2.tables := by
  unfold Tx.Commit
  split
  · exact Tables.Preserved.refl _
  · split
    · exact Tables.Preserved.refl _
    · exact h.1

/-- C9: for every build, every store and every fault schedule, each table
after `Save` begins with the rows it held before the call, in the same order
and unchanged, whether the call committed or rolled back. -/
theorem Save_preserves_rows (c : Client) (faults : List Bool) (b : Build) :
    Tables.Preserved c.tables (c.Save faults b).2.tables := by
  unfold Client.Save
  split
  · exact Tables.Preserved.refl _
  · rename_i tx hb
    have htx : tx.base = c.tables ∧ tx.Inv := by
      unfold Client.Begin at hb
      split at hb
      · cases hb
      · injection hb with hb
        subst hb
        exact ⟨rfl, Tables.Preserved.refl _, fun _ h => absurd h (List.not_mem_nil _)⟩
    have hr := Save.body_reach tx b
    have hbase := hr.base
    have hinv := hr.inv htx.2
    rw [htx.1] at hbase
    generalize Save.body tx b = r at hr hbase hinv
    obtain ⟨ret, tx'⟩ := r
    simp only at hbase hinv ⊢
    unfold Save.deferred
    split
    · show Tables.Preserved c.tables tx'.base
      rw [hbase]
      exact Tables.Preserved.refl _
    · rw [← hbase]
      exact Tx.Commit_preserved tx' hinv

end postgres

namespace postgres

open storage

/-! ## Dependency order of the statements -/

theorem Tx.apply_log (tx : Tx) (s : Stmt) (f : Bool) : (Tx.apply tx s f).2.log = tx.log := by
  unfold Tx.apply
  split
  · rfl
  · split
    · split <;> rfl
    · split <;> rfl
    · split
      · rfl
      · split <;> rfl

theorem Tx.run_log (tx : Tx) (s : Stmt) :
    (tx.run s).2.log = tx.log ++ [⟨s, (tx.run s).1⟩] := by
  simp only [Tx.run]
  rw [Tx.apply_log]

theorem Tx.Reach.log_mono {a b : Tx} (h : Tx.Reach a b) : a.log <+: b.log := by
  induction h with
  | refl => exact List.prefix_refl _
  | run s _ ih =>
    rw [Tx.run_log]
    exact ih.trans (List.prefix_append _ _)
  | xid _ ih => exact ih

theorem Returned.returned_mono {l l' : List Event} {p : Stmt → Prop} {id : Int} (hl : l <+: l')
    (h : Returned l p id) : Returned l' p id := by
  obtain ⟨e, he, hp⟩ := h
  exact ⟨e, hl.subset he, hp⟩

theorem DependencyOrdered.append_one {l : List Event} {e : Event} (h : DependencyOrdered l)
    (he : e.stmt.Justified l) : DependencyOrdered (l ++ [e]) := by
  intro pre x post hsplit
  rcases List.append_eq_append_iff.mp hsplit.symm with ⟨a', h1, h2⟩ | ⟨c', h1, h2⟩
  · cases a' with
    | nil =>
      simp only [List.nil_append, List.cons.injEq] at h2
      simp only [List.append_nil] at h1
      rw [h2.1, ← h1]
      exact he
    | cons y a'' =>
      simp only [List.cons_append, List.cons.injEq] at h2
      exact h pre x a'' (by rw [h1, h2.1])
  · cases c' with
    | nil =>
      simp only [List.nil_append, List.cons.injEq] at h2
      simp only [List.append_nil] at h1
      rw [← h2.1, h1]
      exact he
    | cons y c'' =>
      have := congrArg List.length h2
      simp at this

theorem Tx.run_ordered (tx : Tx) (s : Stmt) (h : DependencyOrdered tx.log)
    (hj : s.Justified tx.log) : DependencyOrdered (tx.run s).2.log := by
  rw [Tx.run_log]
  exact h.append_one hj

theorem Tx.Exec_ordered (tx : Tx) (s : Stmt) (h : DependencyOrdered tx.log)
    (hj : s.Justified tx.log) : DependencyOrdered (tx.Exec s).2.log := by
  have h := Tx.run_ordered tx s h hj
  unfold Tx.Exec
  split <;> rename_i heq <;> rw [heq] at h <;> exact h

theorem Tx.QueryRowScan_ordered (tx : Tx) (s : Stmt) (h : DependencyOrdered tx.log)
    (hj : s.Justified tx.log) : DependencyOrdered (tx.QueryRowScan s).2.log := by
  have h := Tx.run_ordered tx s h hj
  unfold Tx.QueryRowScan
  split <;> rename_i heq <;> rw [heq] at h <;> exact h

theorem Tx.QueryRowScan_returned {tx tx' : Tx} {s : Stmt} {id : Int}
    (h : tx.QueryRowScan s = (.ok id, tx')) (p : Stmt → Prop) (hp : p s) :
    Returned tx'.log p id := by
  have hl := Tx.run_log tx s
  unfold Tx.QueryRowScan at h
  split at h
  · rename_i id' rest tx1 heq
    injection h with h1 h2
    injection h1 with h1
    subst h1 h2
    rw [heq] at hl
    refine ⟨⟨s, .ok (id' :: rest)⟩, ?_, hp, rfl⟩
    rw [hl]
    simp
  · cases h
  · cases h

theorem DependencyOrdered.ordered_of_eq {α : Type} {c : Tx} {x : α} {r : α × Tx}
    (h : DependencyOrdered r.2.log) (e : r = (x, c)) : DependencyOrdered c.log := by
  subst e; exact h

theorem insertIfNotExist_ordered_aux (tx : Tx) (i s : Stmt) (hi : ∀ l, i.Justified l)
    (hs : ∀ l, s.Justified l) (h : DependencyOrdered tx.log) :
    DependencyOrdered (insertIfNotExist tx i s).2.log := by
  unfold insertIfNotExist
  split
  rename_i n tx1 h1
  have o1 : DependencyOrdered tx1.log := by
    unfold Tx.newXid at h1
    injection h1 with _ h1
    subst h1
    exact h
  split
  · rename_i err tx2 h2
    exact (Tx.Exec_ordered tx1 (.savepoint n) o1 trivial).ordered_of_eq h2
  · rename_i tx2 h2
    have o2 := (Tx.Exec_ordered tx1 (.savepoint n) o1 trivial).ordered_of_eq h2
    split
    · rename_i id tx3 h3
      exact (Tx.QueryRowScan_ordered tx2 _ o2 (hi _)).ordered_of_eq h3
    · rename_i e tx3 h3
      have o3 := (Tx.QueryRowScan_ordered tx2 _ o2 (hi _)).ordered_of_eq h3
      split
      · rename_i err tx4 h4
        exact (Tx.Exec_ordered tx3 (.rollbackTo n) o3 trivial).ordered_of_eq h4
      · rename_i tx4 h4
        have o4 := (Tx.Exec_ordered tx3 (.rollbackTo n) o3 trivial).ordered_of_eq h4
        split
        · rename_i err tx5 h5
          exact (Tx.QueryRowScan_ordered tx4 _ o4 (hs _)).ordered_of_eq h5
        · rename_i id tx5 h5
          exact (Tx.QueryRowScan_ordered tx4 _ o4 (hs _)).ordered_of_eq h5

theorem insertIfNotExist_ordered {tx c : Tx} {i s : Stmt} {x : Except Err Int}
    (e : insertIfNotExist tx i s = (x, c)) (hi : ∀ l, i.Justified l)
    (hs : ∀ l, s.Justified l) (h : DependencyOrdered tx.log) : DependencyOrdered c.log :=
  (insertIfNotExist_ordered_aux tx i s hi hs h).ordered_of_eq e

theorem insertIfNotExist_returned {tx tx' : Tx} {i s : Stmt} {id : Int}
    (h : insertIfNotExist tx i s = (.ok id, tx')) (p : Stmt → Prop) (hi : p i) (hs : p s) :
    Returned tx'.log p id := by
  unfold insertIfNotExist at h
  split at h
  rename_i n tx1 h1
  split at h
  · cases h
  · rename_i tx2 h2
    split at h
    · rename_i id3 tx3 h3
      injection h with h1 h2
      injection h1 with h1
      subst h1 h2
      exact Tx.QueryRowScan_returned h3 p hi
    · rename_i e tx3 h3
      split at h
      · cases h
      · rename_i tx4 h4
        split at h
        · cases h
        · rename_i id5 tx5 h5
          injection h with h1 h2
          injection h1 with h1
          subst h1 h2
          exact Tx.QueryRowScan_returned h5 p hs

theorem Tx.Exec_ordered_eq {tx c : Tx} {s : Stmt} {x : Option Err} (e : tx.Exec s = (x, c))
    (h : DependencyOrdered tx.log) (hj : s.Justified tx.log) : DependencyOrdered c.log :=
  (Tx.Exec_ordered tx s h hj).ordered_of_eq e

theorem Tx.QueryRowScan_ordered_eq {tx c : Tx} {s : Stmt} {x : Except Err Int}
    (e : tx.QueryRowScan s = (x, c)) (h : DependencyOrdered tx.log)
    (hj : s.Justified tx.log) : DependencyOrdered c.log :=
  (Tx.QueryRowScan_ordered tx s h hj).ordered_of_eq e

end postgres

namespace postgres

open storage

theorem Returned.weaken {l : List Event} {p q : Stmt → Prop} {id : Int}
    (hpq : ∀ s, p s → q s) (h : Returned l p id) : Returned l q id := by
  obtain ⟨e, he, hp, hr⟩ := h
  exact ⟨e, he, hpq _ hp, hr⟩

theorem Succeeded.succeeded_mono {l l' : List Event} {s : Stmt} (hl : l <+: l')
    (h : Succeeded l s) : Succeeded l' s := by
  obtain ⟨ids, he⟩ := h
  exact ⟨ids, hl.subset he⟩

theorem Tx.Exec_succeeded {tx tx' : Tx} {s : Stmt} (h : tx.Exec s = (none, tx')) :
    Succeeded tx'.log s := by
  have hl := Tx.run_log tx s
  unfold Tx.Exec at h
  split at h
  · rename_i ids tx1 heq
    injection h with _ h2
    subst h2
    rw [heq] at hl
    refine ⟨ids, ?_⟩
    rw [hl]
    simp
  · cases h

theorem Returned.build_of_eq {l : List Event} {q : Stmt} {id : Int} (hq : q.isBuildInsert)
    (h : Returned l (fun s => s = q) id) : Returned l Stmt.isBuildInsert id :=
  h.weaken (fun s hs => by rw [hs]; exact hq)

/-- What `saveOutput` adds to an ordered log, given that the build id was
returned by the build insert. -/
theorem saveOutput_ordered (tx : Tx) (buildID : Int) (a : Output)
    (hb : Returned tx.log Stmt.isBuildInsert buildID) (h : DependencyOrdered tx.log) :
    DependencyOrdered (saveOutput tx buildID a).2.log := by
  unfold saveOutput
  split
  · rename_i err tx1 h1
    exact insertIfNotExist_ordered h1 (fun _ => trivial) (fun _ => trivial) h
  · rename_i id tx1 h1
    have o1 := insertIfNotExist_ordered h1 (fun _ => trivial) (fun _ => trivial) h
    have r1 : Tx.Reach tx tx1 := (insertIfNotExist_reach tx _ _).reach_of_eq h1
    have ho : Returned tx1.log Stmt.isOutputStep id :=
      insertIfNotExist_returned h1 Stmt.isOutputStep trivial trivial
    have j2 : (Stmt.dml (.insertOutputBuild buildID id)).Justified tx1.log :=
      ⟨hb.returned_mono r1.log_mono, ho⟩
    split
    · rename_i err tx2 h2
      exact Tx.Exec_ordered_eq h2 o1 j2
    · rename_i tx2 h2
      have o2 := Tx.Exec_ordered_eq h2 o1 j2
      have r2 : Tx.Reach tx1 tx2 := (Tx.Exec_reach tx1 _).reach_of_eq h2
      have j3 : (Stmt.dml (.insertUpload id a.URI
          (Int.tdiv a.UploadDuration Millisecond))).Justified tx2.log :=
        ho.returned_mono r2.log_mono
      split
      · rename_i err tx3 h3
        exact Tx.Exec_ordered_eq h3 o2 j3
      · rename_i tx3 h3
        exact Tx.Exec_ordered_eq h3 o2 j3

theorem Save.outputs_ordered (buildID : Int) (l : List Output) :
    ∀ tx : Tx, Returned tx.log Stmt.isBuildInsert buildID → DependencyOrdered tx.log →
      DependencyOrdered (Save.outputs tx buildID l).2.log := by
  induction l with
  | nil => intro tx _ h; exact h
  | cons a rest ih =>
    intro tx hb h
    have o := saveOutput_ordered tx buildID a hb h
    have r := saveOutput_reach tx buildID a
    unfold Save.outputs
    split
    · rename_i err tx1 h1
      exact o.ordered_of_eq h1
    · rename_i tx1 h1
      exact ih tx1 (hb.returned_mono (r.reach_of_eq h1).log_mono) (o.ordered_of_eq h1)

theorem Save.inputs_ordered (buildID : Int) (l : List Input) :
    ∀ tx : Tx, Returned tx.log Stmt.isBuildInsert buildID → DependencyOrdered tx.log →
      DependencyOrdered (Save.inputs tx buildID l).2.log := by
  induction l with
  | nil => intro tx _ h; exact h
  | cons a rest ih =>
    intro tx hb h
    unfold Save.inputs
    split
    · rename_i err tx1 h1
      exact insertIfNotExist_ordered h1 (fun _ => trivial) (fun _ => trivial) h
    · rename_i id tx1 h1
      have o1 := insertIfNotExist_ordered h1 (fun _ => trivial) (fun _ => trivial) h
      have r1 : Tx.Reach tx tx1 := (insertIfNotExist_reach tx _ _).reach_of_eq h1
      have ho : Returned tx1.log Stmt.isInputStep id :=
        insertIfNotExist_returned h1 Stmt.isInputStep trivial trivial
      have j2 : (Stmt.dml (.insertInputBuild buildID id)).Justified tx1.log :=
        ⟨hb.returned_mono r1.log_mono, ho⟩
      split
      · rename_i err tx2 h2
        exact Tx.Exec_ordered_eq h2 o1 j2
      · rename_i tx2 h2
        have r2 : Tx.Reach tx1 tx2 := (Tx.Exec_reach tx1 _).reach_of_eq h2
        exact ih tx2 (hb.returned_mono (r1.reach_trans r2).log_mono) (Tx.Exec_ordered_eq h2 o1 j2)

theorem Save.body_ordered (tx : Tx) (b : Build) (h : DependencyOrdered tx.log) :
    DependencyOrdered (Save.body tx b).2.log := by
  unfold Save.body
  split
  · rename_i err tx1 h1
    exact insertIfNotExist_ordered h1 (fun _ => trivial) (fun _ => trivial) h
  · rename_i appID tx1 h1
    have o1 := insertIfNotExist_ordered h1 (fun _ => trivial) (fun _ => trivial) h
    have ha : Returned tx1.log Stmt.isApplicationStep appID :=
      insertIfNotExist_returned h1 Stmt.isApplicationStep trivial trivial
    have j2 : (Stmt.dml (.insertBuild appID b.StartTimeStamp b.StopTimeStamp
        b.TotalInputDigest)).Justified tx1.log := ha
    split
    · rename_i err tx2 h2
      exact Tx.QueryRowScan_ordered_eq h2 o1 j2
    · rename_i bid tx2 h2
      have o2 := Tx.QueryRowScan_ordered_eq h2 o1 j2
      have hb : Returned tx2.log Stmt.isBuildInsert bid :=
        Tx.QueryRowScan_returned h2 Stmt.isBuildInsert trivial
      have o3 := Save.outputs_ordered bid b.Outputs tx2 hb o2
      have r3 := Save.outputs_reach bid b.Outputs tx2
      split
      · rename_i err tx3 h3
        exact o3.ordered_of_eq h3
      · rename_i tx3 h3
        have o4 := Save.inputs_ordered bid b.Inputs tx3 (hb.returned_mono (r3.reach_of_eq h3).log_mono)
          (o3.ordered_of_eq h3)
        split
        · rename_i err tx4 h4
          exact o4.ordered_of_eq h4
        · rename_i tx4 h4
          exact o4.ordered_of_eq h4

/-! ### The steps of a successful `Save` -/

theorem saveOutput_complete (tx tx' : Tx) (buildID : Int) (a : Output)
    (h : saveOutput tx buildID a = (none, tx')) :
    ∃ outputID : Int,
      Returned tx'.log (fun s => s = .dml (.insertOutput a.Name a.Type_ a.Digest.String a.SizeBytes) ∨
        s = .dml (.selectOutput a.Name a.Digest.String a.SizeBytes)) outputID ∧
      Succeeded tx'.log (.dml (.insertOutputBuild buildID outputID)) ∧
      Succeeded tx'.log
        (.dml (.insertUpload outputID a.URI (Int.tdiv a.UploadDuration Millisecond))) := by
  unfold saveOutput at h
  split at h
  · cases h
  · rename_i id tx1 h1
    have ho := insertIfNotExist_returned h1
      (fun s => s = .dml (.insertOutput a.Name a.Type_ a.Digest.String a.SizeBytes) ∨
        s = .dml (.selectOutput a.Name a.Digest.String a.SizeBytes)) (Or.inl rfl) (Or.inr rfl)
    split at h
    · cases h
    · rename_i tx2 h2
      have s2 := Tx.Exec_succeeded h2
      have r2 : Tx.Reach tx1 tx2 := (Tx.Exec_reach tx1 _).reach_of_eq h2
      split at h
      · cases h
      · rename_i tx3 h3
        have s3 := Tx.Exec_succeeded h3
        have r3 : Tx.Reach tx2 tx3 := (Tx.Exec_reach tx2 _).reach_of_eq h3
        injection h with _ h
        subst h
        exact ⟨id, ho.returned_mono (r2.reach_trans r3).log_mono, s2.succeeded_mono r3.log_mono, s3⟩

theorem Save.outputs_complete (buildID : Int) (l : List Output) :
    ∀ tx tx' : Tx, Save.outputs tx buildID l = (none, tx') →
      ∀ a ∈ l, ∃ outputID : Int,
        Returned tx'.log (fun s => s = .dml (.insertOutput a.Name a.Type_ a.Digest.String a.SizeBytes) ∨
          s = .dml (.selectOutput a.Name a.Digest.String a.SizeBytes)) outputID ∧
        Succeeded tx'.log (.dml (.insertOutputBuild buildID outputID)) ∧
        Succeeded tx'.log
          (.dml (.insertUpload outputID a.URI (Int.tdiv a.UploadDuration Millisecond))) := by
  induction l with
  | nil => intro _ _ _ a ha; cases ha
  | cons x rest ih =>
    intro tx tx' h a ha
    unfold Save.outputs at h
    split at h
    · cases h
    · rename_i tx1 h1
      have rr : Tx.Reach tx1 tx' := (Save.outputs_reach buildID rest tx1).reach_of_eq h
      rcases List.mem_cons.mp ha with hx | hx
      · subst hx
        obtain ⟨oid, f1, f2, f3⟩ := saveOutput_complete tx tx1 buildID a h1
        exact ⟨oid, f1.returned_mono rr.log_mono, f2.succeeded_mono rr.log_mono, f3.succeeded_mono rr.log_mono⟩
      · exact ih tx1 tx' h a hx

theorem Save.inputs_complete (buildID : Int) (l : List Input) :
    ∀ tx tx' : Tx, Save.inputs tx buildID l = (none, tx') →
      ∀ i ∈ l, ∃ inputID : Int,
        Returned tx'.log (fun s => s = .dml (.insertInput i.URL i.Digest) ∨
          s = .dml (.selectInput i.URL i.Digest)) inputID ∧
        Succeeded tx'.log (.dml (.insertInputBuild buildID inputID)) := by
  induction l with
  | nil => intro _ _ _ a ha; cases ha
  | cons x rest ih =>
    intro tx tx' h a ha
    unfold Save.inputs at h
    split at h
    · cases h
    · rename_i id tx1 h1
      split at h
      · cases h
      · rename_i tx2 h2
        have rr : Tx.Reach tx2 tx' := (Save.inputs_reach buildID rest tx2).reach_of_eq h
        rcases List.mem_cons.mp ha with hx | hx
        · subst hx
          have ho := insertIfNotExist_returned h1
            (fun s => s = .dml (.insertInput a.URL a.Digest) ∨
              s = .dml (.selectInput a.URL a.Digest)) (Or.inl rfl) (Or.inr rfl)
          have s2 := Tx.Exec_succeeded h2
          have r2 : Tx.Reach tx1 tx2 := (Tx.Exec_reach tx1 _).reach_of_eq h2
          exact ⟨id, ho.returned_mono (r2.reach_trans rr).log_mono, s2.succeeded_mono rr.log_mono⟩
        · exact ih tx2 tx' h a hx

theorem Save.body_complete (tx tx' : Tx) (b : Build) (r : SaveReturn)
    (h : Save.body tx b = (r, tx')) (hr : r.ret = none) : SaveComplete tx'.log b := by
  unfold Save.body at h
  split at h
  · injection h with h _; subst h; cases hr
  · rename_i appID tx1 h1
    have ha := insertIfNotExist_returned h1
      (fun s => s = .dml (.insertApplication b.AppNameLower) ∨
        s = .dml (.selectApplication b.AppNameLower)) (Or.inl rfl) (Or.inr rfl)
    split at h
    · injection h with h _; subst h; cases hr
    · rename_i bid tx2 h2
      have hb := Tx.QueryRowScan_returned h2
        (fun s => s = .dml (.insertBuild appID b.StartTimeStamp b.StopTimeStamp
          b.TotalInputDigest)) rfl
      have r2 : Tx.Reach tx1 tx2 := (Tx.QueryRowScan_reach tx1 _).reach_of_eq h2
      split at h
      · injection h with h _; subst h; cases hr
      · rename_i tx3 h3
        have r3 : Tx.Reach tx2 tx3 := (Save.outputs_reach bid _ tx2).reach_of_eq h3
        have co := Save.outputs_complete bid b.Outputs tx2 tx3 h3
        split at h
        · injection h with h _; subst h; cases hr
        · rename_i tx4 h4
          have r4 : Tx.Reach tx3 tx4 := (Save.inputs_reach bid _ tx3).reach_of_eq h4
          have ci := Save.inputs_complete bid b.Inputs tx3 tx4 h4
          injection h with _ h
          subst h
          refine ⟨appID, bid, ha.returned_mono ((r2.reach_trans r3).reach_trans r4).log_mono,
            hb.returned_mono (r3.reach_trans r4).log_mono, ?_, ci⟩
          intro a ha'
          obtain ⟨oid, f1, f2, f3⟩ := co a ha'
          exact ⟨oid, f1.returned_mono r4.log_mono, f2.succeeded_mono r4.log_mono, f3.succeeded_mono r4.log_mono⟩

/-- C6: the statements of one `Save` are in dependency order, whatever the
build, the store and the faults: a build insert is sent after the application
insert-or-reuse and with the id it returned, a join insert after the build
insert (with the id it returned) and after the output's or input's
insert-or-reuse (with the id it returned), an upload insert after its
output's insert-or-reuse and with the id it returned; and when `Save`
returns no error, all these steps were sent and answered without error. -/
theorem Save_dependency_order (c : Client) (faults : List Bool) (b : Build) :
    DependencyOrdered (c.SaveLog faults b) ∧
      ((c.Save faults b).1 = none → SaveComplete (c.SaveLog faults b) b) := by
  unfold Client.SaveLog Client.Save
  cases hb : c.Begin faults with
  | error e =>
    refine ⟨?_, fun h => by cases h⟩
    intro pre e post h
    simp at h
  | ok tx =>
    have hlog : tx.log = [] := by
      unfold Client.Begin at hb
      split at hb
      · cases hb
      · injection hb with hb; subst hb; rfl
    have h0 : DependencyOrdered tx.log := by
      rw [hlog]
      intro pre e post h
      simp at h
    refine ⟨Save.body_ordered tx b h0, ?_⟩
    intro hs
    exact Save.body_complete tx (Save.body tx b).2 b (Save.body tx b).1 rfl hs

/-- C6 at the scenario build saved into the empty store. -/
theorem Save_dependency_order_witness :
    (emptyClient.Save [] scenarioBuild).1 = none ∧
      SaveComplete (emptyClient.SaveLog [] scenarioBuild) scenarioBuild :=
  ⟨rfl, (Save_dependency_order emptyClient [] scenarioBuild).2 rfl⟩

end postgres

namespace postgres

open storage

/-! ## What a successful step does to the rows -/

theorem Tx.run_dml_ok {tx tx' : Tx} {q : Query} {ids : List Int}
    (h : tx.run (.dml q) = (.ok ids, tx')) :
    tx'.status = .active ∧ (q.run tx.cur tx.seqs).2 = .ok (ids, tx'.cur) := by
  simp only [Tx.run, Tx.apply] at h
  split at h
  · simp at h
  · split at h
    · simp at h
    · split at h
      · rename_i hq
        simp at h
      · rename_i hst _ sq ids' t hq
        simp only [Prod.mk.injEq, Except.ok.injEq] at h
        obtain ⟨h1, h2⟩ := h
        subst h1 h2
        refine ⟨?_, ?_⟩
        · simp only
          cases hs : tx.status with
          | active => rfl
          | failed => exact absurd hs hst
        · simp only at hq ⊢
          rw [hq]

theorem Tx.run_dml_error {tx tx' : Tx} {q : Query} {e : SqlError}
    (h : tx.run (.dml q) = (.error e, tx')) :
    tx'.cur = tx.cur ∧ tx'.savepoints = tx.savepoints := by
  simp only [Tx.run, Tx.apply] at h
  split at h
  · simp only [Prod.mk.injEq] at h
    obtain ⟨_, h2⟩ := h
    subst h2
    exact ⟨rfl, rfl⟩
  · split at h
    · simp only [Prod.mk.injEq] at h
      obtain ⟨_, h2⟩ := h
      subst h2
      exact ⟨rfl, rfl⟩
    · split at h
      · simp only [Prod.mk.injEq] at h
        obtain ⟨_, h2⟩ := h
        subst h2
        exact ⟨rfl, rfl⟩
      · simp at h

theorem Tx.run_savepoint_ok {tx tx' : Tx} {n : Nat} {ids : List Int}
    (h : tx.run (.savepoint n) = (.ok ids, tx')) :
    tx'.cur = tx.cur ∧ tx'.savepoints = (n, tx.cur) :: tx.savepoints := by
  simp only [Tx.run, Tx.apply] at h
  split at h
  · simp at h
  · split at h
    · simp at h
    · simp only [Prod.mk.injEq] at h
      obtain ⟨_, h2⟩ := h
      subst h2
      exact ⟨rfl, rfl⟩

theorem Tx.run_rollbackTo_ok {tx tx' : Tx} {n : Nat} {ids : List Int} {t : Tables}
    {rest : List (Nat × Tables)} (hsp : tx.savepoints = (n, t) :: rest)
    (h : tx.run (.rollbackTo n) = (.ok ids, tx')) :
    tx'.cur = t ∧ tx'.status = .active := by
  simp only [Tx.run, Tx.apply] at h
  split at h
  · simp at h
  · simp only [hsp, List.dropWhile_cons, ne_eq, not_true_eq_false, decide_False,
      Bool.false_eq_true, ↓reduceIte] at h
    simp only [Prod.mk.injEq] at h
    obtain ⟨_, h2⟩ := h
    subst h2
    exact ⟨rfl, rfl⟩

theorem Tx.Exec_none {tx tx' : Tx} {s : Stmt} (h : tx.Exec s = (none, tx')) :
    ∃ ids, tx.run s = (.ok ids, tx') := by
  unfold Tx.Exec at h
  split at h
  · rename_i ids tx1 heq
    simp only [Prod.mk.injEq, true_and] at h
    subst h
    exact ⟨ids, heq⟩
  · simp at h

theorem Tx.QueryRowScan_ok {tx tx' : Tx} {s : Stmt} {id : Int}
    (h : tx.QueryRowScan s = (.ok id, tx')) :
    ∃ rest, tx.run s = (.ok (id :: rest), tx') := by
  unfold Tx.QueryRowScan at h
  split at h
  · rename_i id' rest tx1 heq
    simp only [Prod.mk.injEq, Except.ok.injEq] at h
    obtain ⟨h1, h2⟩ := h
    subst h1 h2
    exact ⟨rest, heq⟩
  · simp at h
  · simp at h

theorem Tx.QueryRowScan_error {tx tx' : Tx} {s : Stmt} {e : Err}
    (h : tx.QueryRowScan s = (.error e, tx')) :
    (∃ e', tx.run s = (.error e', tx')) ∨ tx.run s = (.ok [], tx') := by
  unfold Tx.QueryRowScan at h
  split at h
  · simp at h
  · rename_i tx1 heq
    simp only [Prod.mk.injEq] at h
    obtain ⟨_, h2⟩ := h
    subst h2
    exact Or.inr heq
  · rename_i e' tx1 heq
    simp only [Prod.mk.injEq] at h
    obtain ⟨_, h2⟩ := h
    subst h2
    exact Or.inl ⟨e', heq⟩

/-- A successful `Exec` of a data statement ran it on the rows the
transaction saw. -/
theorem Tx.Exec_dml_none {tx tx' : Tx} {q : Query} (h : tx.Exec (.dml q) = (none, tx')) :
    tx'.status = .active ∧ ∃ ids sq, (q.run tx.cur sq).2 = .ok (ids, tx'.cur) := by
  obtain ⟨ids, hr⟩ := Tx.Exec_none h
  obtain ⟨h1, h2⟩ := Tx.run_dml_ok hr
  exact ⟨h1, ids, tx.seqs, h2⟩

theorem Tx.QueryRowScan_dml_ok {tx tx' : Tx} {q : Query} {id : Int}
    (h : tx.QueryRowScan (.dml q) = (.ok id, tx')) :
    tx'.status = .active ∧ ∃ rest sq, (q.run tx.cur sq).2 = .ok (id :: rest, tx'.cur) := by
  obtain ⟨rest, hr⟩ := Tx.QueryRowScan_ok h
  obtain ⟨h1, h2⟩ := Tx.run_dml_ok hr
  exact ⟨h1, rest, tx.seqs, h2⟩

/-- A successful insert-or-reuse returns the id that its insert, or else its
select, returned on the rows the transaction saw at the call. -/
theorem insertIfNotExist_ok {tx tx' : Tx} {qi qs : Query} {id : Int}
    (h : insertIfNotExist tx (.dml qi) (.dml qs) = (.ok id, tx'))
    (hq : ∀ t sq t', (qi.run t sq).2 ≠ .ok ([], t')) :
    tx'.status = .active ∧ ∃ rest sq,
      (qi.run tx.cur sq).2 = .ok (id :: rest, tx'.cur) ∨
      (qs.run tx.cur sq).2 = .ok (id :: rest, tx'.cur) := by
  unfold insertIfNotExist at h
  split at h
  rename_i n tx1 h1
  have c1 : tx1.cur = tx.cur := by
    unfold Tx.newXid at h1
    simp only [Prod.mk.injEq] at h1
    rw [← h1.2]
  split at h
  · simp at h
  · rename_i tx2 h2
    obtain ⟨ids2, hr2⟩ := Tx.Exec_none h2
    obtain ⟨c2, sp2⟩ := Tx.run_savepoint_ok hr2
    split at h
    · rename_i id3 tx3 h3
      simp only [Prod.mk.injEq, Except.ok.injEq] at h
      obtain ⟨e1, e2⟩ := h
      subst e1 e2
      obtain ⟨st, rest, sq, hrun⟩ := Tx.QueryRowScan_dml_ok h3
      rw [c2, c1] at hrun
      exact ⟨st, rest, sq, Or.inl hrun⟩
    · rename_i e tx3 h3
      have hc3 : tx3.cur = tx2.cur ∧ tx3.savepoints = tx2.savepoints := by
        rcases Tx.QueryRowScan_error h3 with ⟨e', he⟩ | he
        · exact Tx.run_dml_error he
        · exact absurd (Tx.run_dml_ok he).2 (hq _ _ _)
      split at h
      · simp at h
      · rename_i tx4 h4
        obtain ⟨ids4, hr4⟩ := Tx.Exec_none h4
        obtain ⟨c4, st4⟩ := Tx.run_rollbackTo_ok (hc3.2.trans sp2) hr4
        split at h
        · simp at h
        · rename_i id5 tx5 h5
          simp only [Prod.mk.injEq, Except.ok.injEq] at h
          obtain ⟨e1, e2⟩ := h
          subst e1 e2
          obtain ⟨st, rest, sq, hrun⟩ := Tx.QueryRowScan_dml_ok h5
          rw [c4, c1] at hrun
          exact ⟨st, rest, sq, Or.inr hrun⟩

end postgres

namespace postgres

open storage

theorem Query.run_frame {q : Query} {t t' : Tables} {sq : Seqs} {ids : List Int}
    (h : (q.run t sq).2 = .ok (ids, t')) (hq : q.writesInputPart = false) :
    t'.build = t.build ∧ t'.input = t.input ∧ t'.input_build = t.input_build := by
  cases q <;> simp only [Query.writesInputPart] at hq <;> simp only [Query.run] at h <;>
    first
    | exact absurd hq (by decide)
    | (split at h
       · cases h
       · first
         | (injection h with h; injection h with _ h; subst h
            exact ⟨rfl, rfl, rfl⟩)
         | (split at h
            · cases h
            · injection h with h; injection h with _ h; subst h
              exact ⟨rfl, rfl, rfl⟩))
    | (injection h with h; injection h with _ h; subst h
       exact ⟨rfl, rfl, rfl⟩)

theorem insertInput_ok_inv {u d : String} {t t' : Tables} {sq : Seqs} {id : Int}
    {rest : List Int} (h : ((Query.insertInput u d).run t sq).2 = .ok (id :: rest, t')) :
    t' = { t with input := t.input ++ [⟨id, u, d⟩] } ∧
      ¬ ∃ r ∈ t.input, r.id = id ∨ (r.url = u ∧ r.digest = d) := by
  simp only [Query.run] at h
  split at h
  · cases h
  · rename_i hc
    simp only [Except.ok.injEq, Prod.mk.injEq, List.cons.injEq] at h
    obtain ⟨⟨h1, _⟩, h2⟩ := h
    subst h1
    exact ⟨h2.symm, hc⟩

theorem selectInput_ok_inv {u d : String} {t t' : Tables} {sq : Seqs} {id : Int}
    {rest : List Int} (h : ((Query.selectInput u d).run t sq).2 = .ok (id :: rest, t')) :
    t' = t ∧ ∃ r ∈ t.input, r.id = id ∧ r.url = u ∧ r.digest = d := by
  simp only [Query.run, Except.ok.injEq, Prod.mk.injEq] at h
  obtain ⟨h1, h2⟩ := h
  refine ⟨h2.symm, ?_⟩
  have hm : id ∈ (t.input.filter (fun r => r.url = u ∧ r.digest = d)).map (·.id) := by
    rw [h1]
    exact List.mem_cons_self _ _
  obtain ⟨r, hr, hid⟩ := List.mem_map.mp hm
  obtain ⟨hr1, hr2⟩ := List.mem_filter.mp hr
  simp only [decide_eq_true_eq] at hr2
  exact ⟨r, hr1, hid, hr2.1, hr2.2⟩

theorem insertInputBuild_ok_inv {c1 c2 : Int} {t t' : Tables} {sq : Seqs} {ids : List Int}
    (h : ((Query.insertInputBuild c1 c2).run t sq).2 = .ok (ids, t')) :
    t' = { t with input_build := t.input_build ++ [⟨c1, c2⟩] } := by
  simp only [Query.run] at h
  split at h
  · cases h
  · simp only [Except.ok.injEq, Prod.mk.injEq] at h
    exact h.2.symm

theorem insertBuild_ok_inv {a st sp : Int} {d : String} {t t' : Tables} {sq : Seqs}
    {id : Int} {rest : List Int}
    (h : ((Query.insertBuild a st sp d).run t sq).2 = .ok (id :: rest, t')) :
    t' = { t with build := t.build ++ [⟨id, a, st, sp, d⟩] } ∧ ∀ r ∈ t.build, r.id ≠ id := by
  simp only [Query.run] at h
  split at h
  · cases h
  · rename_i hpk
    split at h
    · cases h
    · simp only [Except.ok.injEq, Prod.mk.injEq, List.cons.injEq] at h
      obtain ⟨⟨h1, _⟩, h2⟩ := h
      subst h1
      exact ⟨h2.symm, fun r hr e => hpk ⟨r, hr, e⟩⟩

theorem insertApplication_returns (n : String) (t : Tables) (sq : Seqs) (t' : Tables) :
    ((Query.insertApplication n).run t sq).2 ≠ .ok ([], t') := by
  simp only [Query.run]
  split <;> simp

theorem insertOutput_returns (n ty d : String) (sz : Int) (t : Tables) (sq : Seqs)
    (t' : Tables) : ((Query.insertOutput n ty d sz).run t sq).2 ≠ .ok ([], t') := by
  simp only [Query.run]
  split <;> simp

theorem insertInput_returns (u d : String) (t : Tables) (sq : Seqs) (t' : Tables) :
    ((Query.insertInput u d).run t sq).2 ≠ .ok ([], t') := by
  simp only [Query.run]
  split <;> simp

theorem InputConstraints.append_row {rows : List InputRow} {x : InputRow}
    (h : InputConstraints rows)
    (hx : ¬ ∃ r ∈ rows, r.id = x.id ∨ (r.url = x.url ∧ r.digest = x.digest)) :
    InputConstraints (rows ++ [x]) := by
  unfold InputConstraints at h ⊢
  rw [List.pairwise_append]
  refine ⟨h, List.pairwise_singleton _ _, ?_⟩
  intro r hr y hy
  simp only [List.mem_singleton] at hy
  subst hy
  constructor
  · intro e
    exact hx ⟨r, hr, Or.inl e⟩
  · intro e
    exact hx ⟨r, hr, Or.inr e⟩

/-- A successful `insertInputIfNotExist` leaves `build` and `input_build` as
they were, adds at most the new row to `input`, keeps the constraints of
`input`, and returns the id of a row of `input` with the input's key. -/
theorem insertInputIfNotExist_ok {tx tx' : Tx} {s : Input} {id : Int}
    (h : insertInputIfNotExist tx s = (.ok id, tx')) :
    tx'.status = .active ∧ tx'.cur.build = tx.cur.build ∧
      tx'.cur.input_build = tx.cur.input_build ∧
      (∃ new, tx'.cur.input = tx.cur.input ++ new) ∧
      (InputConstraints tx.cur.input → InputConstraints tx'.cur.input) ∧
      ∃ r ∈ tx'.cur.input, r.id = id ∧ r.url = s.URL ∧ r.digest = s.Digest := by
  unfold insertInputIfNotExist at h
  obtain ⟨st, rest, sq, hrun⟩ := insertIfNotExist_ok h (insertInput_returns _ _)
  refine ⟨st, ?_⟩
  rcases hrun with hrun | hrun
  · obtain ⟨e, hno⟩ := insertInput_ok_inv hrun
    rw [e]
    refine ⟨rfl, rfl, ⟨_, rfl⟩, ?_, ⟨id, s.URL, s.Digest⟩, ?_, rfl, rfl, rfl⟩
    · intro hc
      exact hc.append_row hno
    · simp
  · obtain ⟨e, r, hr, hid, hu, hd⟩ := selectInput_ok_inv hrun
    rw [e]
    exact ⟨rfl, rfl, ⟨[], by simp⟩, fun hc => hc, r, hr, hid, hu, hd⟩

end postgres

namespace postgres

open storage

theorem SameInputPart.same_refl (t : Tables) : SameInputPart t t := ⟨rfl, rfl, rfl⟩

theorem SameInputPart.comp {a b c : Tables} (h1 : SameInputPart a b) (h2 : SameInputPart b c) :
    SameInputPart a c :=
  ⟨h2.1.trans h1.1, h2.2.1.trans h1.2.1, h2.2.2.trans h1.2.2⟩

theorem insertIfNotExist_frame {tx tx' : Tx} {qi qs : Query} {id : Int}
    (h : insertIfNotExist tx (.dml qi) (.dml qs) = (.ok id, tx'))
    (hq : ∀ t sq t', (qi.run t sq).2 ≠ .ok ([], t'))
    (hi : qi.writesInputPart = false) (hs : qs.writesInputPart = false) :
    tx'.status = .active ∧ SameInputPart tx.cur tx'.cur := by
  obtain ⟨st, rest, sq, hrun⟩ := insertIfNotExist_ok h hq
  refine ⟨st, ?_⟩
  rcases hrun with hrun | hrun
  · exact Query.run_frame hrun hi
  · exact Query.run_frame hrun hs

theorem Tx.Exec_dml_frame {tx tx' : Tx} {q : Query} (h : tx.Exec (.dml q) = (none, tx'))
    (hq : q.writesInputPart = false) : tx'.status = .active ∧ SameInputPart tx.cur tx'.cur := by
  obtain ⟨st, ids, sq, hrun⟩ := Tx.Exec_dml_none h
  exact ⟨st, Query.run_frame hrun hq⟩

theorem saveOutput_frame {tx tx' : Tx} {buildID : Int} {a : Output}
    (h : saveOutput tx buildID a = (none, tx')) :
    tx'.status = .active ∧ SameInputPart tx.cur tx'.cur := by
  unfold saveOutput at h
  split at h
  · simp at h
  · rename_i id tx1 h1
    obtain ⟨_, f1⟩ := insertIfNotExist_frame h1 (insertOutput_returns _ _ _ _) rfl rfl
    split at h
    · simp at h
    · rename_i tx2 h2
      obtain ⟨_, f2⟩ := Tx.Exec_dml_frame h2 rfl
      split at h
      · simp at h
      · rename_i tx3 h3
        obtain ⟨st, f3⟩ := Tx.Exec_dml_frame h3 rfl
        simp only [Prod.mk.injEq, true_and] at h
        subst h
        exact ⟨st, (f1.comp f2).comp f3⟩

theorem Save.outputs_frame (buildID : Int) (l : List Output) :
    ∀ tx tx' : Tx, Save.outputs tx buildID l = (none, tx') → tx.status = .active →
      tx'.status = .active ∧ SameInputPart tx.cur tx'.cur := by
  induction l with
  | nil =>
    intro tx tx' h hst
    simp only [Save.outputs, Prod.mk.injEq, true_and] at h
    subst h
    exact ⟨hst, SameInputPart.same_refl _⟩
  | cons a rest ih =>
    intro tx tx' h _
    unfold Save.outputs at h
    split at h
    · simp at h
    · rename_i tx1 h1
      obtain ⟨st1, f1⟩ := saveOutput_frame h1
      obtain ⟨st, f⟩ := ih tx1 tx' h st1
      exact ⟨st, f1.comp f⟩

theorem insertBuild_ok {tx tx' : Tx} {appID bid : Int} {b : Build}
    (h : insertBuild tx appID b = (.ok bid, tx')) :
    tx'.status = .active ∧
      tx'.cur = { tx.cur with build := tx.cur.build ++
        [⟨bid, appID, b.StartTimeStamp, b.StopTimeStamp, b.TotalInputDigest⟩] } ∧
      ∀ r ∈ tx.cur.build, r.id ≠ bid := by
  unfold insertBuild at h
  obtain ⟨st, rest, sq, hrun⟩ := Tx.QueryRowScan_dml_ok h
  exact ⟨st, insertBuild_ok_inv hrun⟩

theorem insertInputBuild_ok {tx tx' : Tx} {buildID inputID : Int}
    (h : insertInputBuild tx buildID inputID = (none, tx')) :
    tx'.status = .active ∧
      tx'.cur = { tx.cur with input_build := tx.cur.input_build ++ [⟨buildID, inputID⟩] } := by
  unfold insertInputBuild at h
  obtain ⟨st, ids, sq, hrun⟩ := Tx.Exec_dml_none h
  exact ⟨st, insertInputBuild_ok_inv hrun⟩

theorem JoinsInput.mono_rows {rows rows' : List InputRow} {buildID : Int} {i : Input}
    {j : InputBuildRow} (hsub : ∀ r ∈ rows, r ∈ rows') (h : JoinsInput rows buildID i j) :
    JoinsInput rows' buildID i j := by
  obtain ⟨h1, r, hr, h2⟩ := h
  exact ⟨h1, r, hsub r hr, h2⟩

/-- What a successful run of the loop over `b.Inputs` does: `build` is
untouched, `input` grows and keeps its constraints, and `input_build` gets
one join row per input, in order, each under the build id and referencing a
row of `input` with the input's key. -/
theorem Save.inputs_ok (buildID : Int) (l : List Input) :
    ∀ tx tx' : Tx, Save.inputs tx buildID l = (none, tx') → tx.status = .active →
      tx'.status = .active ∧ tx'.cur.build = tx.cur.build ∧
      (InputConstraints tx.cur.input → InputConstraints tx'.cur.input) ∧
      ∃ new js, tx'.cur.input = tx.cur.input ++ new ∧
        tx'.cur.input_build = tx.cur.input_build ++ js ∧
        List.Forall₂ (JoinsInput tx'.cur.input buildID) l js := by
  induction l with
  | nil =>
    intro tx tx' h hst
    simp only [Save.inputs, Prod.mk.injEq, true_and] at h
    subst h
    exact ⟨hst, rfl, fun hc => hc, [], [], by simp, by simp, List.Forall₂.nil⟩
  | cons s rest ih =>
    intro tx tx' h _
    unfold Save.inputs at h
    split at h
    · simp at h
    · rename_i id tx1 h1
      obtain ⟨_, b1, j1, ⟨new1, i1⟩, c1, r, hr, hrid, hru, hrd⟩ := insertInputIfNotExist_ok h1
      split at h
      · simp at h
      · rename_i tx2 h2
        obtain ⟨st2, e2⟩ := insertInputBuild_ok h2
        obtain ⟨st, b3, c3, new3, js3, i3, j3, f3⟩ := ih tx2 tx' h st2
        rw [e2] at b3 c3 i3 j3
        simp only at b3 c3 i3 j3
        refine ⟨st, b3.trans b1, fun hc => c3 (c1 hc), new1 ++ new3, ⟨buildID, id⟩ :: js3,
          ?_, ?_, ?_⟩
        · rw [i3, i1, List.append_assoc]
        · rw [j3, j1, List.append_assoc]
          rfl
        · refine List.Forall₂.cons ⟨rfl, r, ?_, hrid, hru, hrd⟩ f3
          rw [i3]
          exact List.mem_append_left _ hr

theorem Tx.Commit_none {tx : Tx} (h : tx.Commit.1 = none) : tx.Commit.2.tables = tx.cur := by
  unfold Tx.Commit at h ⊢
  split
  · rename_i hf
    rw [if_pos hf] at h
    cases h
  · rename_i hf
    rw [if_neg hf] at h
    split
    · rename_i hs
      rw [if_pos hs] at h
      cases h
    · rfl

/-- What a `Save` that returns no error and whose transaction was committed
has done to `build`, `input` and `input_build`: one build row was added,
`input` grew and kept its constraints, and `input_build` got one join row per
input of the build, each under the id of the new build row and referencing a
row of `input` with the input's key. -/
theorem Save_ok {c c' : Client} {faults : List Bool} {b : Build}
    (h : c.Save faults b = (none, c')) (hk : c.SaveCommitted faults b = true) :
    ∃ br new js, c'.tables.build = c.tables.build ++ [br] ∧
      (∀ r ∈ c.tables.build, r.id ≠ br.id) ∧
      c'.tables.input = c.tables.input ++ new ∧
      c'.tables.input_build = c.tables.input_build ++ js ∧
      (InputConstraints c.tables.input → InputConstraints c'.tables.input) ∧
      List.Forall₂ (JoinsInput c'.tables.input br.id) b.Inputs js := by
  unfold Client.Save at h
  split at h
  · simp at h
  · rename_i tx hb
    have htx : tx.cur = c.tables := by
      unfold Client.Begin at hb
      split at hb
      · cases hb
      · injection hb with hb
        subst hb
        rfl
    split at h
    rename_i r tx' hbody
    simp only [Prod.mk.injEq] at h
    obtain ⟨hret, hc'⟩ := h
    have hk' : r.err = none ∧ tx'.Commit.1 = none := by
      unfold Client.SaveCommitted at hk
      rw [hb] at hk
      simp only [hbody, decide_eq_true_eq] at hk
      exact hk
    unfold Save.body at hbody
    split at hbody
    · simp only [Prod.mk.injEq] at hbody
      rw [← hbody.1] at hret
      simp at hret
    · rename_i appID tx1 h1
      obtain ⟨_, f1⟩ := insertIfNotExist_frame h1 (insertApplication_returns _) rfl rfl
      split at hbody
      · simp only [Prod.mk.injEq] at hbody
        rw [← hbody.1] at hret
        simp at hret
      · rename_i bid tx2 h2
        obtain ⟨st2, e2, fresh2⟩ := insertBuild_ok h2
        split at hbody
        · simp only [Prod.mk.injEq] at hbody
          rw [← hbody.1] at hret
          simp at hret
        · rename_i tx3 h3
          obtain ⟨st3, f3⟩ := Save.outputs_frame bid _ tx2 tx3 h3 st2
          split at hbody
          · simp only [Prod.mk.injEq] at hbody
            rw [← hbody.1] at hret
            simp at hret
          · rename_i tx4 h4
            obtain ⟨st4, b4, c4, new, js, i4, j4, f4⟩ := Save.inputs_ok bid _ tx3 tx4 h4 st3
            simp only [Prod.mk.injEq] at hbody
            obtain ⟨hr, htx'⟩ := hbody
            subst hr htx'
            have hc : c'.tables = tx4.cur := by
              rw [← hc']
              simp only [Save.deferred, ne_eq, not_true_eq_false, if_false]
              exact Tx.Commit_none hk'.2
            rw [hc]
            obtain ⟨fb1, fi1, fj1⟩ := f1
            obtain ⟨fb3, fi3, fj3⟩ := f3
            rw [e2] at fb3 fi3 fj3
            simp only at fb3 fi3 fj3
            rw [htx] at fb1 fi1 fj1
            refine ⟨⟨bid, appID, b.StartTimeStamp, b.StopTimeStamp, b.TotalInputDigest⟩, new, js,
              ?_, ?_, ?_, ?_, ?_, f4⟩
            · rw [b4, fb3, fb1]
            · rw [← fb1]
              exact fresh2
            · rw [i4, fi3, fi1]
            · rw [j4, fj3, fj1]
            · intro hcon
              apply c4
              rw [fi3, fi1]
              exact hcon

end postgres

namespace postgres

open storage

theorem InputConstraints.eq_of_key {rows : List InputRow} (h : InputConstraints rows)
    {r r' : InputRow} (hr : r ∈ rows) (hr' : r' ∈ rows) (hu : r.url = r'.url)
    (hd : r.digest = r'.digest) : r = r' := by
  by_contra hne
  have hsym : Symmetric (fun r r' : InputRow =>
      r.id ≠ r'.id ∧ ¬ (r.url = r'.url ∧ r.digest = r'.digest)) := by
    intro a b hab
    exact ⟨fun e => hab.1 e.symm, fun e => hab.2 ⟨e.1.symm, e.2.symm⟩⟩
  exact (List.Pairwise.forall hsym h hr hr' hne).2 ⟨hu, hd⟩

theorem InputConstraints.eq_of_id {rows : List InputRow} (h : InputConstraints rows)
    {r r' : InputRow} (hr : r ∈ rows) (hr' : r' ∈ rows) (hid : r.id = r'.id) : r = r' := by
  by_contra hne
  have hsym : Symmetric (fun r r' : InputRow =>
      r.id ≠ r'.id ∧ ¬ (r.url = r'.url ∧ r.digest = r'.digest)) := by
    intro a b hab
    exact ⟨fun e => hab.1 e.symm, fun e => hab.2 ⟨e.1.symm, e.2.symm⟩⟩
  exact (List.Pairwise.forall hsym h hr hr' hne).1 hid

theorem InputConstraints.filter_key :
    ∀ {rows : List InputRow}, InputConstraints rows → ∀ {r : InputRow}, r ∈ rows →
      rows.filter (fun x => x.url = r.url ∧ x.digest = r.digest) = [r] := by
  intro rows
  induction rows with
  | nil => intro _ r hr; cases hr
  | cons x xs ih =>
    intro h r hr
    have hx : InputConstraints xs := (List.pairwise_cons.mp h).2
    have hhead := (List.pairwise_cons.mp h).1
    rcases List.mem_cons.mp hr with e | hmem
    · subst e
      have hnone : xs.filter (fun x => x.url = r.url ∧ x.digest = r.digest) = [] := by
        rw [List.filter_eq_nil_iff]
        intro y hy hkey
        simp only [decide_eq_true_eq] at hkey
        exact (hhead y hy).2 ⟨hkey.1.symm, hkey.2.symm⟩
      rw [List.filter_cons_of_pos (by simp), hnone]
    · have hneg : ¬ (decide (x.url = r.url ∧ x.digest = r.digest) = true) := by
        intro hkey
        simp only [decide_eq_true_eq] at hkey
        exact (hhead r hmem).2 hkey
      rw [List.filter_cons, if_neg hneg]
      exact ih hx hmem

theorem Forall₂_filter {α β : Type} {R : α → β → Prop} {p : α → Bool} {q : β → Bool}
    (hpq : ∀ a b, R a b → p a = q b) :
    ∀ {l : List α} {m : List β}, List.Forall₂ R l m →
      List.Forall₂ R (l.filter p) (m.filter q) := by
  intro l m h
  induction h with
  | nil => exact List.Forall₂.nil
  | @cons a b l' m' hab _ ih =>
    have e := hpq a b hab
    cases hq : q b with
    | true =>
      rw [hq] at e
      rw [List.filter_cons, List.filter_cons, if_pos e, if_pos hq]
      exact List.Forall₂.cons hab ih
    | false =>
      rw [hq] at e
      rw [List.filter_cons, List.filter_cons, if_neg (by simp [e]), if_neg (by simp [hq])]
      exact ih

theorem Forall₂_exists_of_mem {α β : Type} {R : α → β → Prop} :
    ∀ {l : List α} {m : List β}, List.Forall₂ R l m → ∀ a ∈ l, ∃ b ∈ m, R a b := by
  intro l m h
  induction h with
  | nil => intro a ha; cases ha
  | @cons x y l' m' hxy _ ih =>
    intro a ha
    rcases List.mem_cons.mp ha with e | hmem
    · subst e
      exact ⟨y, List.mem_cons_self _ _, hxy⟩
    · obtain ⟨b, hb, hr⟩ := ih a hmem
      exact ⟨b, List.mem_cons_of_mem _ hb, hr⟩

theorem Forall₂_exists_of_mem_right {α β : Type} {R : α → β → Prop} :
    ∀ {l : List α} {m : List β}, List.Forall₂ R l m → ∀ b ∈ m, ∃ a ∈ l, R a b := by
  intro l m h
  induction h with
  | nil => intro b hb; cases hb
  | @cons x y l' m' hxy _ ih =>
    intro b hb
    rcases List.mem_cons.mp hb with e | hmem
    · subst e
      exact ⟨x, List.mem_cons_self _ _, hxy⟩
    · obtain ⟨a, ha, hr⟩ := ih b hmem
      exact ⟨a, List.mem_cons_of_mem _ ha, hr⟩

/-- Among the join rows a `Save` added for a build, those that reference the
row with a given key are as many as the build lists that key, each under the
build's id. -/
theorem joins_of_key {rows : List InputRow} (hc : InputConstraints rows) {row : InputRow}
    (hrow : row ∈ rows) {bid : Int} {l : List Input} {js : List InputBuildRow}
    (hf : List.Forall₂ (JoinsInput rows bid) l js) :
    js.filter (fun j => j.input_id = row.id) =
      List.replicate (l.filter (fun i => i.URL = row.url ∧ i.Digest = row.digest)).length
        ⟨bid, row.id⟩ := by
  have hpq : ∀ (i : Input) (j : InputBuildRow), JoinsInput rows bid i j →
      decide (i.URL = row.url ∧ i.Digest = row.digest) = decide (j.input_id = row.id) := by
    intro i j hij
    obtain ⟨_, r, hr, hid, hu, hd⟩ := hij
    apply decide_eq_decide.mpr
    constructor
    · intro hk
      have : r = row := hc.eq_of_key hr hrow (hu.trans hk.1) (hd.trans hk.2)
      rw [← hid, this]
    · intro hk
      have : r = row := hc.eq_of_id hr hrow (hid.trans hk)
      rw [← this]
      exact ⟨hu.symm, hd.symm⟩
  have hff := Forall₂_filter hpq hf
  rw [List.eq_replicate_iff]
  refine ⟨hff.length_eq.symm, ?_⟩
  intro j hj
  obtain ⟨hjmem, hq⟩ := List.mem_filter.mp hj
  simp only [decide_eq_true_eq] at hq
  obtain ⟨i, _, hij⟩ := Forall₂_exists_of_mem_right hf j hjmem
  obtain ⟨j1, j2⟩ := j
  simp only at hq
  have hb : j1 = bid := hij.1
  subst hq hb
  rfl

/-- C5, as stated, fails: a build may list the same input twice, and `Save`
then adds two join rows for it; after the two successful (and committed)
calls there is one `input` row and three `input_build` rows that reference
it. -/
theorem Save_twice_three_join_rows :
    scenarioInput ∈ buildTwice.Inputs ∧ scenarioInput ∈ buildOnce.Inputs ∧
    (emptyClient.Save [] buildTwice).1 = none ∧
    emptyClient.SaveCommitted [] buildTwice = true ∧
    ((emptyClient.Save [] buildTwice).2.Save [] buildOnce).1 = none ∧
    (emptyClient.Save [] buildTwice).2.SaveCommitted [] buildOnce = true ∧
    ((emptyClient.Save [] buildTwice).2.Save [] buildOnce).2.tables.input
      = [⟨1, "build.sh", "sha256:" ++ digest.hexA 64⟩] ∧
    ((emptyClient.Save [] buildTwice).2.Save [] buildOnce).2.tables.input_build
      = [⟨1, 1⟩, ⟨1, 1⟩, ⟨2, 1⟩] := by
  refine ⟨by decide, by decide, rfl, rfl, rfl, rfl, rfl, rfl⟩

/-- C5, amended: starting from any store whose `input` table satisfies its
constraints (primary key `id`, unique `(url, digest)`), two `Save` calls that
return no error and whose transactions were committed, for builds that each
contain an input with the key `(u, d)`, leave exactly one `input` row with
that key and add one build row each (with different ids); among the
`input_build` rows they add, those that reference that input row are, for
each build, as many as the build lists the input, under the id of the build's
new row: exactly two, one per build, when each build lists the input once. -/
theorem Save_twice_shares_input (c : Client) (f1 f2 : List Bool) (b1 b2 : Build)
    (u d : String) (hc : InputConstraints c.tables.input)
    (h1 : ∃ i ∈ b1.Inputs, i.URL = u ∧ i.Digest = d)
    (h2 : ∃ i ∈ b2.Inputs, i.URL = u ∧ i.Digest = d)
    (hs1 : (c.Save f1 b1).1 = none) (hk1 : c.SaveCommitted f1 b1 = true)
    (hs2 : ((c.Save f1 b1).2.Save f2 b2).1 = none)
    (hk2 : (c.Save f1 b1).2.SaveCommitted f2 b2 = true) :
    ∃ (row : InputRow) (br1 br2 : BuildRow) (added : List InputBuildRow),
      ((c.Save f1 b1).2.Save f2 b2).2.tables.input.filter
        (fun r => r.url = u ∧ r.digest = d) = [row] ∧
      ((c.Save f1 b1).2.Save f2 b2).2.tables.build = c.tables.build ++ [br1, br2] ∧
      br1.id ≠ br2.id ∧
      ((c.Save f1 b1).2.Save f2 b2).2.tables.input_build = c.tables.input_build ++ added ∧
      added.filter (fun j => j.input_id = row.id) =
        List.replicate (b1.Inputs.filter (fun i => i.URL = u ∧ i.Digest = d)).length
            ⟨br1.id, row.id⟩ ++
          List.replicate (b2.Inputs.filter (fun i => i.URL = u ∧ i.Digest = d)).length
            ⟨br2.id, row.id⟩ ∧
      ((b1.Inputs.filter (fun i => i.URL = u ∧ i.Digest = d)).length = 1 →
        (b2.Inputs.filter (fun i => i.URL = u ∧ i.Digest = d)).length = 1 →
        added.filter (fun j => j.input_id = row.id)
          = [⟨br1.id, row.id⟩, ⟨br2.id, row.id⟩]) := by
  generalize hc1 : (c.Save f1 b1).2 = c1 at hs2 hk2 ⊢
  generalize hc2 : (c1.Save f2 b2).2 = c2
  have e1 : c.Save f1 b1 = (none, c1) := Prod.ext hs1 hc1
  have e2 : c1.Save f2 b2 = (none, c2) := Prod.ext hs2 hc2
  obtain ⟨br1, new1, js1, hb1, _, hi1, hj1, k1, fa1⟩ := Save_ok e1 hk1
  obtain ⟨br2, new2, js2, hb2, fresh2, hi2, hj2, k2, fa2⟩ := Save_ok e2 hk2
  have hcon : InputConstraints c2.tables.input := k2 (k1 hc)
  obtain ⟨i, himem, hikey⟩ := h2
  obtain ⟨j, _, _, row, hrow, _, hru, hrd⟩ := Forall₂_exists_of_mem fa2 i himem
  have hu : row.url = u := hru.trans hikey.1
  have hd : row.digest = d := hrd.trans hikey.2
  subst hu hd
  have fa1' : List.Forall₂ (JoinsInput c2.tables.input br1.id) b1.Inputs js1 :=
    fa1.imp (fun _ _ h => h.mono_rows (fun r hr => by
      rw [hi2]; exact List.mem_append_left _ hr))
  have q1 := joins_of_key hcon hrow fa1'
  have q2 := joins_of_key hcon hrow fa2
  have hall : (js1 ++ js2).filter (fun j => j.input_id = row.id) =
      List.replicate
          (b1.Inputs.filter (fun i => i.URL = row.url ∧ i.Digest = row.digest)).length
          ⟨br1.id, row.id⟩ ++
        List.replicate
          (b2.Inputs.filter (fun i => i.URL = row.url ∧ i.Digest = row.digest)).length
          ⟨br2.id, row.id⟩ := by
    rw [List.filter_append, q1, q2]
  refine ⟨row, br1, br2, js1 ++ js2, hcon.filter_key hrow, ?_, ?_, ?_, hall, ?_⟩
  · rw [hb2, hb1, List.append_assoc]
    rfl
  · apply fresh2
    rw [hb1]
    exact List.mem_append_right _ (List.mem_singleton_self _)
  · rw [hj2, hj1, List.append_assoc]
  · intro n1 n2
    rw [hall, n1, n2]
    rfl

/-- C5, amended, at the build with the scenario's input, saved twice into the
empty store. -/
theorem Save_twice_shares_input_witness :
    InputConstraints emptyClient.tables.input ∧
    (emptyClient.Save [] buildOnce).1 = none ∧
    emptyClient.SaveCommitted [] buildOnce = true ∧
    ((emptyClient.Save [] buildOnce).2.Save [] buildOnce).1 = none ∧
    (emptyClient.Save [] buildOnce).2.SaveCommitted [] buildOnce = true ∧
    ∃ (row : InputRow) (br1 br2 : BuildRow) (added : List InputBuildRow),
      ((emptyClient.Save [] buildOnce).2.Save [] buildOnce).2.tables.input.filter
        (fun r => r.url = "build.sh" ∧ r.digest = "sha256:" ++ digest.hexA 64) = [row] ∧
      ((emptyClient.Save [] buildOnce).2.Save [] buildOnce).2.tables.build
        = emptyClient.tables.build ++ [br1, br2] ∧
      br1.id ≠ br2.id ∧
      ((emptyClient.Save [] buildOnce).2.Save [] buildOnce).2.tables.input_build
        = emptyClient.tables.input_build ++ added ∧
      added.filter (fun j => j.input_id = row.id) =
        List.replicate (buildOnce.Inputs.filter
            (fun i => i.URL = "build.sh" ∧ i.Digest = "sha256:" ++ digest.hexA 64)).length
            ⟨br1.id, row.id⟩ ++
          List.replicate (buildOnce.Inputs.filter
            (fun i => i.URL = "build.sh" ∧ i.Digest = "sha256:" ++ digest.hexA 64)).length
            ⟨br2.id, row.id⟩ ∧
      ((buildOnce.Inputs.filter
          (fun i => i.URL = "build.sh" ∧ i.Digest = "sha256:" ++ digest.hexA 64)).length = 1 →
        (buildOnce.Inputs.filter
          (fun i => i.URL = "build.sh" ∧ i.Digest = "sha256:" ++ digest.hexA 64)).length = 1 →
        added.filter (fun j => j.input_id = row.id)
          = [⟨br1.id, row.id⟩, ⟨br2.id, row.id⟩]) :=
  ⟨List.Pairwise.nil, rfl, rfl, rfl, rfl,
    Save_twice_shares_input emptyClient [] [] buildOnce buildOnce "build.sh"
      ("sha256:" ++ digest.hexA 64) List.Pairwise.nil
      ⟨scenarioInput, by decide, rfl, rfl⟩ ⟨scenarioInput, by decide, rfl, rfl⟩
      rfl rfl rfl rfl⟩

/-- The error of `tx.Commit()` is discarded: when the commit of an otherwise
faultless `Save` fails, `Save` returns no error and no row is stored. -/
theorem Save_returns_nil_when_commit_fails :
    (emptyClient.Save [false, false, false, false, false, false, false, true] buildOnce).1
      = none ∧
    emptyClient.SaveCommitted [false, false, false, false, false, false, false, true]
      buildOnce = false ∧
    (emptyClient.Save [false, false, false, false, false, false, false, true]
      buildOnce).2.tables = emptyClient.tables := by
  refine ⟨rfl, rfl, rfl⟩

/-! ## The code at the failing inputs -/

/-- C1, the code at the failing input: the insert of the build's output
fails for a reason other than a key conflict, the fallback select finds no
row, `Save` returns the error, and the application row and the build row of
this call are committed. -/
theorem Save_commits_after_output_error :
    (emptyClient.Save [false, false, false, false, false, true] scenarioBuild).1
      = some (.wrap "storing output record failed"
          (.wrap "selecting input record failed after insert failed" .ErrNoRows)) ∧
    (emptyClient.Save [false, false, false, false, false, true] scenarioBuild).2.tables
      = ⟨[⟨1, "svc-a"⟩], [⟨1, 1, 0, 1, ""⟩], [], [], [], [], []⟩ := by
  constructor <;> rfl

/-- C4, the code at the failing input: the output's key is already stored,
the output insert fails for a reason other than the key conflict, and
`Save` still looks the row up, links the build to it and returns no error. -/
theorem Save_reuses_after_other_insert_error :
    (((emptyClient.Save [] scenarioBuild).2.SaveLog
        [false, false, false, false, false, false, false, true] scenarioBuild).map
        (fun e => e.result))[6]? = some (.error .other) ∧
    ((emptyClient.Save [] scenarioBuild).2.Save
        [false, false, false, false, false, false, false, true] scenarioBuild).1 = none ∧
    ((emptyClient.Save [] scenarioBuild).2.Save
        [false, false, false, false, false, false, false, true]
        scenarioBuild).2.tables.output_build = [⟨1, 1⟩, ⟨2, 1⟩] := by
  refine ⟨rfl, rfl, rfl⟩

/-- C7, the code at the scenario: the build for `svc-a` is saved without
error, and `ListBuildsPerApp("svc-a", 10)` returns no build. -/
theorem ListBuildsPerApp_returns_nothing :
    (emptyClient.Save [] scenarioBuild).1 = none ∧
    (emptyClient.Save [] scenarioBuild).2.tables.build = [⟨1, 1, 0, 1, ""⟩] ∧
    (emptyClient.Save [] scenarioBuild).2.ListBuildsPerApp "svc-a" 10 = ([], none) := by
  refine ⟨rfl, rfl, rfl⟩

end postgres

namespace postgres

open storage

/-! ## The stored upload duration -/

/-- Go's integer division by a positive number is the quotient truncated
toward zero. -/
theorem tdiv_truncated (d n : Int) (hn : 0 < n) : TruncatedQuotient d n (Int.tdiv d n) := by
  constructor
  · intro hd
    rw [Int.tdiv_eq_ediv hd (Int.le_of_lt hn)]
    constructor
    · exact Int.ediv_mul_le d (Int.ne_of_gt hn)
    · exact Int.lt_ediv_add_one_mul_self d hn
  · intro hd
    obtain ⟨e, he⟩ : ∃ e : Int, d = -e := ⟨-d, by omega⟩
    have he0 : 0 ≤ e := by omega
    subst he
    rw [Int.neg_tdiv, Int.tdiv_eq_ediv he0 (Int.le_of_lt hn)]
    have h1 := Int.ediv_mul_le e (Int.ne_of_gt hn)
    have h2 := Int.lt_ediv_add_one_mul_self e hn
    constructor
    · have : (-(e / n) - 1) * n = -((e / n + 1) * n) := by ring
      rw [this]
      omega
    · have : -(e / n) * n = -(e / n * n) := by ring
      rw [this]
      omega

theorem insertUpload_ok_inv {o ms : Int} {uri : String} {t t' : Tables} {sq : Seqs}
    {ids : List Int} (h : ((Query.insertUpload o uri ms).run t sq).2 = .ok (ids, t')) :
    t' = { t with upload := t.upload ++ [⟨sq.upload, o, uri, ms⟩] } := by
  simp only [Query.run] at h
  split at h
  · cases h
  · split at h
    · cases h
    · simp only [Except.ok.injEq, Prod.mk.injEq] at h
      exact h.2.symm

/-- C11: for every upload duration `d`, a count of nanoseconds, a successful
`insertUpload` adds one row to `upload` whose `upload_duration_msec` is the
integer quotient of `d` by 1,000,000 truncated toward zero; for a duration of
1200ms it is 1200, and for every duration shorter than one millisecond
(between -999,999 and 999,999 nanoseconds) it is 0. -/
theorem insertUpload_stores_milliseconds (tx tx' : Tx) (outputID : Int) (url : String)
    (d : Int) (h : insertUpload tx outputID url d = (none, tx')) :
    ∃ id ms : Int,
      tx'.cur.upload = tx.cur.upload ++ [⟨id, outputID, url, ms⟩] ∧
      TruncatedQuotient d 1000000 ms ∧
      (d = 1200 * 1000000 → ms = 1200) ∧
      (-1000000 < d ∧ d < 1000000 → ms = 0) := by
  unfold insertUpload at h
  obtain ⟨_, ids, sq, hrun⟩ := Tx.Exec_dml_none h
  have e := insertUpload_ok_inv hrun
  have ht : TruncatedQuotient d 1000000 (Int.tdiv d Millisecond) :=
    tdiv_truncated d 1000000 (by decide)
  refine ⟨sq.upload, Int.tdiv d Millisecond, ?_, ht, ?_, ?_⟩
  · rw [e]
  · intro hd
    obtain ⟨h1, h2⟩ := ht.1 (by omega)
    omega
  · intro hd
    rcases Int.le_total 0 d with h0 | h0
    · obtain ⟨h1, h2⟩ := ht.1 h0
      omega
    · obtain ⟨h1, h2⟩ := ht.2 h0
      omega

/-- C11 at the scenario: the upload of 1200ms to `s3://bucket/bin`, inserted
for the stored output 1. -/
theorem insertUpload_stores_milliseconds_witness :
    (insertUpload scenarioTx 1 "s3://bucket/bin" 1200000000).1 = none ∧
    (insertUpload scenarioTx 1 "s3://bucket/bin" 1200000000).2.cur.upload
      = [⟨1, 1, "s3://bucket/bin", 1200⟩, ⟨2, 1, "s3://bucket/bin", 1200⟩] ∧
    ∃ id ms : Int,
      (insertUpload scenarioTx 1 "s3://bucket/bin" 1200000000).2.cur.upload
        = scenarioTx.cur.upload ++ [⟨id, 1, "s3://bucket/bin", ms⟩] ∧
      TruncatedQuotient 1200000000 1000000 ms ∧
      ((1200000000 : Int) = 1200 * 1000000 → ms = 1200) ∧
      (-1000000 < (1200000000 : Int) ∧ (1200000000 : Int) < 1000000 → ms = 0) :=
  ⟨rfl, rfl,
    insertUpload_stores_milliseconds scenarioTx
      (insertUpload scenarioTx 1 "s3://bucket/bin" 1200000000).2 1 "s3://bucket/bin"
      1200000000 (Prod.ext rfl rfl)⟩

end postgres
